import Mathlib

/-!
# app-service: admission throttle, dispatcher, workers, retry client, statistics

A shallow embedding of `src/app-service/*.go`.

Conventions used throughout:

* Go `int`/`int64` values are `Int`; `uint`/`uint64` values are `Nat` reduced
  modulo `2^64` at every arithmetic step that can wrap.
* A buffered channel of `struct{}` tokens is the pair (number of buffered
  tokens, capacity); a send on a full channel or a receive on an empty one is
  not enabled (`none`).
* Every source of nondeterminism (the pseudo-random pick of a Go `select`
  among its ready cases, the scheduler, the clock, the network, the retry
  bucket) is an explicit argument.
-/

namespace AppService

/-! ## service.go: the throttle middleware -/

/-- Go constant `errCapacityExceeded`. -/
def errCapacityExceeded : String := "Server capacity exceeded."

/-- Go constant `errTimedOut`. -/
def errTimedOut : String := "Timed out while waiting for a pending request to complete."

/-- Go constant `errContextCanceled`. -/
def errContextCanceled : String := "Context was canceled."

/-- Go constant `http.StatusTooManyRequests`. -/
def StatusTooManyRequests : Nat := 429

/-- One call `http.Error(w, body, status)`. -/
structure HttpError where
  body : String
  status : Nat
deriving DecidableEq, Repr

/-- A buffered `chan token`: `len` tokens are buffered out of `cap`. -/
structure Chan where
  len : Nat
  cap : Nat
deriving DecidableEq, Repr

/-- Go `make(chan token, cap)`. -/
def Chan.make (cap : Nat) : Chan := ⟨0, cap⟩

/-- Go `c <- token{}`; `none` when the buffer is full (the send would block). -/
def Chan.send (c : Chan) : Option Chan :=
  if c.len < c.cap then some ⟨c.len + 1, c.cap⟩ else none

/-- Go `<-c`; `none` when the buffer is empty (the receive would block). -/
def Chan.recv (c : Chan) : Option Chan :=
  if 0 < c.len then some ⟨c.len - 1, c.cap⟩ else none

/-- Go struct `throttler` (`retryAfterFn` is always nil in `HandlerThrottle`, so
`setRetryAfterHeaderIfNeeded` returns at once and is left out). -/
structure throttler where
  tokens : Chan
  backlogTokens : Chan
  backlogTimeout : Int
deriving DecidableEq, Repr

/-- Program point of one invocation of the closure `fn` (service.go:75-113). -/
inductive Phase where
  /-- Blocked in the inner `select` (line 92), holding a backlog token. -/
  | waiting
  /-- Inside `next.ServeHTTP` (line 104), holding a backlog and an execution token. -/
  | executing
  /-- Body left (served: `none`, or timed out); only the deferred
  `t.backlogTokens <- btok` is still to run. -/
  | draining (reply : Option HttpError)
  /-- Returned; `reply` is the `http.Error` written by the middleware, `none`
  when the wrapped handler answered. -/
  | done (reply : Option HttpError)
deriving DecidableEq, Repr

/-- The throttler together with every request that has entered `fn` so far. -/
structure ThrottleState where
  t : throttler
  reqs : List Phase
deriving DecidableEq, Repr

/-- The filling loop of `HandlerThrottle` (lines 67-72) for `i` in `0 .. total-1`. -/
def fillTokens (limit total : Nat) (t : throttler) : Option throttler :=
  (List.range total).foldlM
    (fun (t : throttler) (i : Nat) => do
      let t1 ← if i < limit then (t.tokens.send).map (fun c => { t with tokens := c }) else some t
      let b ← t1.backlogTokens.send
      pure { t1 with backlogTokens := b })
    t

/-- Go `HandlerThrottle(limit, backlogLimit, backlogTimeout)` up to the returned
middleware: `none` is a panic (the two explicit ones, or `make` on the wrapped
negative sum when `limit + backlogLimit` overflows `int`). -/
def HandlerThrottle (limit backlogLimit backlogTimeout : Int) : Option ThrottleState :=
  if limit < 1 then none
  else if backlogLimit < 0 then none
  else if 2 ^ 63 ≤ limit + backlogLimit then none
  else
    (fillTokens limit.toNat (limit + backlogLimit).toNat
      { tokens := Chan.make limit.toNat
        backlogTokens := Chan.make (limit + backlogLimit).toNat
        backlogTimeout := backlogTimeout }).map
      (fun t => { t := t, reqs := [] })

/-- The communication cases of the outer `select` (lines 78-112). -/
inductive OuterCase where
  | ctxDone
  | backlog
deriving DecidableEq, Repr

/-- The cases of the outer `select` that can proceed, in source order. -/
def outerReady (t : throttler) (ctxDone : Bool) : List OuterCase :=
  (if ctxDone then [OuterCase.ctxDone] else []) ++
  (if 0 < t.backlogTokens.len then [OuterCase.backlog] else [])

/-- Go `select`: when no case can proceed the `default` case runs (`none`);
otherwise one ready case is picked pseudo-randomly (`choice` is the pick). -/
def goSelect {α : Type} (ready : List α) (choice : Nat) : Option α :=
  ready[choice % ready.length]?

/-- A new request runs the outer `select` of `fn` (lines 78-112); `ctxDone` says
whether `ctx.Done()` is already closed. -/
def enter (s : ThrottleState) (ctxDone : Bool) (choice : Nat) : ThrottleState :=
  match goSelect (outerReady s.t ctxDone) choice with
  | some OuterCase.ctxDone =>
      { s with reqs := s.reqs ++ [Phase.done (some ⟨errContextCanceled, StatusTooManyRequests⟩)] }
  | some OuterCase.backlog =>
      match s.t.backlogTokens.recv with
      | some c => { t := { s.t with backlogTokens := c }, reqs := s.reqs ++ [Phase.waiting] }
      | none => s
  | none =>
      { s with reqs := s.reqs ++ [Phase.done (some ⟨errCapacityExceeded, StatusTooManyRequests⟩)] }

/-- The atomic steps of the middleware. -/
inductive Event where
  /-- A request arrives and runs the outer `select`. -/
  | enter (ctxDone : Bool) (choice : Nat)
  /-- Request `i` receives from `t.tokens` in the inner `select` (line 99). -/
  | acquire (i : Nat)
  /-- The backlog timer of request `i` fires in the inner `select` (line 93). -/
  | timeOut (i : Nat)
  /-- The wrapped handler of request `i` returns; the deferred `t.tokens <- tok` runs. -/
  | finish (i : Nat)
  /-- The deferred `t.backlogTokens <- btok` of request `i` runs and `fn` returns. -/
  | release (i : Nat)
deriving DecidableEq, Repr

/-- One step; `none` when the event is not enabled in `s`. -/
def step (s : ThrottleState) : Event → Option ThrottleState
  | Event.enter ctxDone choice => some (enter s ctxDone choice)
  | Event.acquire i =>
      if s.reqs[i]? = some Phase.waiting then
        (s.t.tokens.recv).map
          (fun c => { t := { s.t with tokens := c }, reqs := s.reqs.set i Phase.executing })
      else none
  | Event.timeOut i =>
      if s.reqs[i]? = some Phase.waiting then
        some { s with
          reqs := s.reqs.set i (Phase.draining (some ⟨errTimedOut, StatusTooManyRequests⟩)) }
      else none
  | Event.finish i =>
      if s.reqs[i]? = some Phase.executing then
        (s.t.tokens.send).map
          (fun c => { t := { s.t with tokens := c }, reqs := s.reqs.set i (Phase.draining none) })
      else none
  | Event.release i =>
      match s.reqs[i]? with
      | some (Phase.draining reply) =>
          (s.t.backlogTokens.send).map
            (fun c => { t := { s.t with backlogTokens := c }, reqs := s.reqs.set i (Phase.done reply) })
      | _ => none

/-- Runs a schedule of events; `none` when one of them is not enabled. -/
def run (s : ThrottleState) : List Event → Option ThrottleState
  | [] => some s
  | e :: es => (step s e).bind (fun s1 => run s1 es)

/-- States reachable from `s0` by enabled steps. -/
inductive Reachable (s0 : ThrottleState) : ThrottleState → Prop where
  | init : Reachable s0 s0
  | next {s s1 : ThrottleState} (e : Event) : Reachable s0 s → step s e = some s1 → Reachable s0 s1

/-- Is the request inside the wrapped handler (`next.ServeHTTP`)? -/
def Phase.inHandler : Phase → Bool
  | Phase.executing => true
  | _ => false

/-- Does the request hold a backlog token? -/
def Phase.holdsBacklog : Phase → Bool
  | Phase.waiting => true
  | Phase.executing => true
  | Phase.draining _ => true
  | Phase.done _ => false

/-- Number of requests inside the wrapped handler. -/
def ThrottleState.executing (s : ThrottleState) : Nat := s.reqs.countP Phase.inHandler

/-- Number of requests holding a backlog token. -/
def ThrottleState.backlogged (s : ThrottleState) : Nat := s.reqs.countP Phase.holdsBacklog

/-- Token conservation: every token is either buffered in its channel or held by
exactly one request. -/
def ThrottleInv (L B : Nat) (s : ThrottleState) : Prop :=
  s.t.tokens.cap = L ∧ s.t.backlogTokens.cap = B ∧
  s.t.tokens.len + s.executing = L ∧ s.t.backlogTokens.len + s.backlogged = B

/-! ## float64

A `float64` is modelled by the rational number it denotes, or one of the three
special values. Every conversion and arithmetic operation rounds its exact
result to the nearest `float64` (ties to even, subnormals and overflow
included), as IEEE 754 prescribes. The sign of zero is not modelled. -/

/-- A Go `float64`. -/
inductive F64 where
  | fin (q : ℚ)
  | posInf
  | negInf
  | nan
deriving DecidableEq

/-- The integer nearest to `m`, the even one of the two when `m` is half-way. -/
def roundHalfEven (m : ℚ) : Int :=
  if m - (⌊m⌋ : ℚ) < 1 / 2 then ⌊m⌋
  else if 1 / 2 < m - (⌊m⌋ : ℚ) then ⌊m⌋ + 1
  else if ⌊m⌋ % 2 = 0 then ⌊m⌋ else ⌊m⌋ + 1

/-- IEEE 754 round-to-nearest-even of the exact value `x` into the binary format
with `prec` significant bits and exponents `emin .. emax`: `|x|` is rounded to a
multiple of `2 ^ (e - (prec - 1))`, `e` being the exponent of `|x|` (not below
`emin`), and a result of `2 ^ (emax + 1)` or more is an infinity. -/
def roundFloat (prec : Nat) (emin emax : Int) (x : ℚ) : F64 :=
  if x = 0 then F64.fin 0
  else
    let k : Int := max (Int.log 2 |x|) emin - ((prec : Int) - 1)
    let r : ℚ := (roundHalfEven (|x| / (2 : ℚ) ^ k) : ℚ) * (2 : ℚ) ^ k
    if (2 : ℚ) ^ (emax + 1) ≤ r then (if 0 < x then F64.posInf else F64.negInf)
    else F64.fin (if 0 < x then r else -r)

/-- Rounding to `float64` (53 significant bits, exponents -1022 .. 1023). -/
def F64.round (x : ℚ) : F64 := roundFloat 53 (-1022) 1023 x

/-- Rounding to `float32` (24 significant bits, exponents -126 .. 127). -/
def F32.round (x : ℚ) : F64 := roundFloat 24 (-126) 127 x

/-- The spacing of the `float64` values in the binade of a positive `a` of the
normal range. -/
def ulp (a : ℚ) : ℚ := (2 : ℚ) ^ (Int.log 2 a - 52)

/-- Go `float64(i)` for an integer `i`. -/
def F64.ofInt (i : Int) : F64 := F64.round i

/-- Go `float32(i)` for an integer `i`. -/
def F32.ofInt (i : Int) : F64 := F32.round i

/-- Go `x != x`. -/
def F64.isNaN : F64 → Bool
  | F64.nan => true
  | _ => false

/-- Go `x < y` on `float64` (false when an operand is NaN). -/
def F64.lt : F64 → F64 → Bool
  | F64.fin a, F64.fin b => decide (a < b)
  | F64.fin _, F64.posInf => true
  | F64.negInf, F64.fin _ => true
  | F64.negInf, F64.posInf => true
  | _, _ => false

/-- Go `x >= y` on `float64` (false when an operand is NaN). -/
def F64.ge : F64 → F64 → Bool
  | F64.nan, _ => false
  | _, F64.nan => false
  | x, y => !(F64.lt x y)

/-- Go `x + y` on `float64`. -/
def F64.add : F64 → F64 → F64
  | F64.fin a, F64.fin b => F64.round (a + b)
  | F64.nan, _ => F64.nan
  | _, F64.nan => F64.nan
  | F64.posInf, F64.negInf => F64.nan
  | F64.negInf, F64.posInf => F64.nan
  | F64.posInf, _ => F64.posInf
  | _, F64.posInf => F64.posInf
  | F64.negInf, _ => F64.negInf
  | _, F64.negInf => F64.negInf

/-- Division of floating-point values, the finite quotient rounded by `rnd`. -/
def floatDiv (rnd : ℚ → F64) : F64 → F64 → F64
  | F64.nan, _ => F64.nan
  | _, F64.nan => F64.nan
  | F64.fin a, F64.fin b =>
      if b ≠ 0 then rnd (a / b)
      else if a = 0 then F64.nan
      else if 0 < a then F64.posInf else F64.negInf
  | F64.fin _, _ => F64.fin 0
  | F64.posInf, F64.fin b => if 0 ≤ b then F64.posInf else F64.negInf
  | F64.negInf, F64.fin b => if 0 ≤ b then F64.negInf else F64.posInf
  | _, _ => F64.nan

/-- Go `x / y` on `float64`. -/
def F64.div (x y : F64) : F64 := floatDiv F64.round x y

/-- Go `x / y` on `float32`. -/
def F32.div (x y : F64) : F64 := floatDiv F32.round x y

/-- Go `math.Min(x, y)`: `-Inf` wins, then NaN, then the smaller operand. -/
def mathMin : F64 → F64 → F64
  | F64.negInf, _ => F64.negInf
  | _, F64.negInf => F64.negInf
  | F64.nan, _ => F64.nan
  | _, F64.nan => F64.nan
  | x, y => if F64.lt x y then x else y

/-- Go `int64(x)`: truncation toward zero; a value outside the `int64` range,
an infinity or NaN converts to `-2^63` (the amd64 result). -/
def F64.toInt64 : F64 → Int
  | F64.fin q =>
      let z := q.num.tdiv q.den
      if -(2 : Int) ^ 63 ≤ z ∧ z < 2 ^ 63 then z else -(2 : Int) ^ 63
  | _ => -(2 : Int) ^ 63

/-- Go `floats.Sum(x)` of gonum, adding from left to right (the amd64 kernel of
gonum adds in several lanes; the value is the same whenever every partial sum
is exact). -/
def floatsSum (x : List F64) : F64 := x.foldl F64.add (F64.fin 0)

/-- Go `stat.Mean(x, nil)`. -/
def statMean (x : List F64) : F64 := F64.div (floatsSum x) (F64.ofInt x.length)

/-! ## clock.go -/

/-- Wrap-around of `int64` arithmetic. -/
def wrapInt64 (x : Int) : Int := (x + 2 ^ 63) % 2 ^ 64 - 2 ^ 63

/-- Go struct `Clock` as one reader sees it (the ticker goroutine that executes
`c.millis++` is the environment: every read is given the clock of that instant). -/
structure Clock where
  millis : Int
deriving DecidableEq, Repr

/-- Go `(*Clock).GetMillis`. -/
def Clock.GetMillis (c : Clock) : Int := c.millis

/-- Go `(*Clock).Since`. -/
def Clock.Since (c : Clock) (t : Int) : Int := wrapInt64 (c.millis - t)

/-! ## statman.go: counters -/

/-- Number of values of Go `uint` / `uint64`. -/
def uintSize : Nat := 2 ^ 64

/-- Go struct `StatsManager`. -/
structure StatsManager where
  connAccepted : Nat
  connProcessed : Nat
  connClosed : Nat
  rqstReceived : Nat
  rqstProcessed : Nat
  rqstLatencies : List F64
  qosValues : List F64
deriving DecidableEq

/-- Go `NewStatsManager`. -/
def NewStatsManager : StatsManager :=
  { connAccepted := 0, connProcessed := 0, connClosed := 0, rqstReceived := 0,
    rqstProcessed := 0, rqstLatencies := [], qosValues := [] }

/-- Go `(*StatsManager).incrAcceptedConns`. -/
def StatsManager.incrAcceptedConns (s : StatsManager) : StatsManager :=
  { s with connAccepted := (s.connAccepted + 1) % uintSize }

/-- Go `(*StatsManager).incrProcessedConns`. -/
def StatsManager.incrProcessedConns (s : StatsManager) : StatsManager :=
  { s with connProcessed := (s.connProcessed + 1) % uintSize }

/-- Go `(*StatsManager).incrClosedConns`. -/
def StatsManager.incrClosedConns (s : StatsManager) : StatsManager :=
  { s with connClosed := (s.connClosed + 1) % uintSize }

/-- Go `(*StatsManager).incrReceivedRqsts`. -/
def StatsManager.incrReceivedRqsts (s : StatsManager) : StatsManager :=
  { s with rqstReceived := (s.rqstReceived + 1) % uintSize }

/-- Go `(*StatsManager).incrProcessedRqsts`. -/
def StatsManager.incrProcessedRqsts (s : StatsManager) : StatsManager :=
  { s with rqstProcessed := (s.rqstProcessed + 1) % uintSize }

/-- Go `(*StatsManager).recordLatency`. -/
def StatsManager.recordLatency (s : StatsManager) (l : Int) : StatsManager :=
  { s with rqstLatencies := s.rqstLatencies ++ [F64.ofInt l] }

/-- Go `(*StatsManager).recordQoS`. -/
def StatsManager.recordQoS (s : StatsManager) (q : F64) : StatsManager :=
  { s with qosValues := s.qosValues ++ [q] }

/-! ## service.go: the dispatcher -/

/-- Go constant `AGENT_VERSION`. -/
def AGENT_VERSION : String := "1.0"

/-- Go constant `http.StatusServiceUnavailable`. -/
def StatusServiceUnavailable : Nat := 503

/-- Go struct `HandlerResponse`. -/
structure HandlerResponse where
  RequestId : String
  AgentId : String
  AgentVersion : String
  QoS : F64
  Message : String
  RecvTimestamp : String
  TxTimestamp : String
deriving DecidableEq

/-- The zero value of `HandlerResponse`. -/
def HandlerResponse.zero : HandlerResponse :=
  { RequestId := "", AgentId := "", AgentVersion := "", QoS := F64.fin 0, Message := "",
    RecvTimestamp := "", TxTimestamp := "" }

/-- What a worker's `process()` returns: message, QoS, error (`none` is nil). -/
structure Outcome where
  msg : String
  qos : F64
  err : Option String
deriving DecidableEq

/-- Go `BaseWorker.process`. -/
def BaseWorker.process : Outcome := { msg := "no worker configured", qos := F64.fin 0, err := none }

/-- A call made on the `http.ResponseWriter`; `write` carries the value whose
JSON encoding is sent. -/
inductive WriterCall where
  | writeHeader (status : Nat)
  | setHeader (key value : String)
  | write (body : HandlerResponse)
deriving DecidableEq

/-- The fields of Go struct `ServiceServer` that `defaultHandler` uses. -/
structure ServiceServer where
  agentId : String
  threadCount : Int
  queueLength : Int
  statman : StatsManager

/-- What one invocation of `defaultHandler` gets from outside: the clock at the
read of line 172 and at the read of line 220, the result of
`s.worker.process()`, whether `ctx.Done()` is closed at line 193, and the
identifier drawn by `uuid.New()`. -/
structure HandlerEnv where
  clockAtStart : Clock
  clockAtEnd : Clock
  outcome : Outcome
  ctxDone : Bool
  requestId : String

/-- Go `(*ServiceServer).defaultHandler`: the server with its updated statistics
and the calls made on the response writer, in order. -/
def ServiceServer.defaultHandler (s : ServiceServer) (env : HandlerEnv) :
    ServiceServer × List WriterCall :=
  let startTime := env.clockAtStart.GetMillis
  let st := s.statman.incrAcceptedConns
  let st := st.incrReceivedRqsts
  let st := if F64.ge env.outcome.qos (F64.fin 0) then st.recordQoS env.outcome.qos else st
  let st := if env.outcome.err = none then st.incrProcessedRqsts else st
  let connOpen := !env.ctxDone
  let (st, calls) :=
    if connOpen then
      let response : HandlerResponse :=
        { RequestId := env.requestId, AgentId := s.agentId, AgentVersion := AGENT_VERSION,
          QoS := env.outcome.qos, Message := env.outcome.msg,
          RecvTimestamp := "", TxTimestamp := "" }
      let calls :=
        (if env.outcome.err ≠ none then [WriterCall.writeHeader StatusServiceUnavailable] else []) ++
        [WriterCall.setHeader "Content-Type" "application/json", WriterCall.write response]
      (st.incrProcessedConns, calls)
    else (st, [])
  let st := st.recordLatency (env.clockAtEnd.Since startTime)
  let st := st.incrClosedConns
  ({ s with statman := st }, calls)

/-! ## terminator.go -/

/-- Go constant `TERMINAL_SLEEP_TIME` (milliseconds). -/
def TERMINAL_SLEEP_TIME : Int := 15

/-- Go variable `busyWorkCalls` (never assigned after its initialisation). -/
def busyWorkCalls : Nat := 205008

/-- Go struct `TerminalWorker` (`statman` is not used by `process`). -/
structure TerminalWorker where
  loadShedThreshold : Int
  clientDeadlineCutoff : Int
deriving DecidableEq, Repr

/-- Go struct `Node`: `leaf` is `Node{}` (nil `next`), `node l r` is
`Node{&Next{l, r}}`. -/
inductive Node where
  | leaf
  | node (left right : Node)
deriving DecidableEq, Repr

/-- Go `createTree` on a depth that is not negative. -/
def createTreeNat : Nat → Node
  | 0 => Node.node Node.leaf Node.leaf
  | 1 => Node.node Node.leaf Node.leaf
  | d + 2 => Node.node (createTreeNat (d + 1)) (createTreeNat (d + 1))

/-- Go `createTree(depth)`: every depth `≤ 1` gives the two-leaf tree. -/
def createTree (depth : Int) : Node := createTreeNat depth.toNat

/-- The loop of Go `checkTree` started at `current = node.next` with the running
`sum`; the recursive call `checkTree(current.right)` is `checkTreeLoop right 1`. -/
def checkTreeLoop : Node → Int → Int
  | Node.leaf, sum => sum
  | Node.node left right, sum => checkTreeLoop left (sum + (checkTreeLoop right 1 + 1))

/-- Go `checkTree`. -/
def checkTree (node : Node) : Int := checkTreeLoop node 1

/-- Go conversion `uint64(i)` of an `int`. -/
def uint64OfInt (i : Int) : Nat := (i % (uintSize : Int)).toNat

/-- The goroutine started for one `halfDepth` in `makeBinaryTrees`: `iters`
atomic additions of `checkTree(createTree(depth))` to `workDone`. -/
def makeBinaryTreesWorker (depth : Int) (iters : Nat) (workDone : Nat) : Nat :=
  (List.range iters).foldl
    (fun w _ => (w + uint64OfInt (checkTree (createTree depth))) % uintSize) workDone

/-- Go `makeBinaryTrees` (`minDepth = 4`, `maxDepth = 6`): the value of `workDone`
after `group.Wait()`. The atomic additions commute, so the goroutines are run one
after the other. -/
def makeBinaryTrees : Nat :=
  let minDepth : Int := 4
  let maxDepth : Int := 6
  let workDone := (0 + uint64OfInt (checkTree (createTree (maxDepth + 1)))) % uintSize
  ([2, 3] : List Int).foldl
    (fun w halfDepth =>
      makeBinaryTreesWorker (halfDepth * 2) (1 <<< (maxDepth - halfDepth * 2 + minDepth).toNat) w)
    workDone

/-- The `for` loop of `TerminalWorker.process` (lines 44-48). `clocks` holds the
clock at each successive `t.clock.Since(processStartTime)`. The result is
`workDone` and the last `timeDiff`; `none` when the loop is still running after
the last supplied reading. -/
def TerminalWorker.processLoop (t : TerminalWorker) (processStartTime : Int) :
    Nat → List Clock → Option (Nat × Int)
  | _, [] => none
  | workDone, c :: cs =>
      let timeDiff := c.Since processStartTime
      if timeDiff < t.clientDeadlineCutoff ∧
          (workDone < busyWorkCalls ∨ timeDiff < TERMINAL_SLEEP_TIME) then
        TerminalWorker.processLoop t processStartTime ((workDone + makeBinaryTrees) % uintSize) cs
      else some (workDone, timeDiff)

/-- Go `TerminalWorker.process`: `start` is the clock read by `GetMillis` at line
41, `clocks` the clock at each later read. -/
def TerminalWorker.process (t : TerminalWorker) (start : Clock) (clocks : List Clock) :
    Option Outcome :=
  (t.processLoop start.GetMillis 0 clocks).map (fun r =>
    let qos := F64.div (F64.ofInt r.1) (F64.ofInt busyWorkCalls)
    { msg := "Rooted", qos := mathMin (F64.fin 1) qos, err := none })

/-- The loop condition of `TerminalWorker.process` (lines 44-45) at the clock
reading `c`, `workDone` units of work being done. -/
def TerminalWorker.continues (t : TerminalWorker) (start c : Clock) (workDone : Nat) : Prop :=
  c.Since start.GetMillis < t.clientDeadlineCutoff ∧
    (workDone < busyWorkCalls ∨ c.Since start.GetMillis < TERMINAL_SLEEP_TIME)

/-- The `uint64` sum of the results of `n` units of `makeBinaryTrees`. -/
def unitsWork (n : Nat) : Nat := (n * makeBinaryTrees) % uintSize

/-! ## forwarder.go -/

/-- What `ioutil.ReadAll(resp.Body)` will find: the bytes and the read error. -/
structure Body where
  content : String
  readErr : Option String
deriving DecidableEq, Repr

/-- Go struct `http.Response` (the fields used). -/
structure Response where
  StatusCode : Int
  Status : String
  Body : Body
deriving DecidableEq, Repr

/-- Result of `http.Client.Get`: a response with a nil error, or an error (with
which the response may be nil). -/
inductive GetResult where
  | success (resp : Response)
  | failure (resp : Option Response) (err : String)
deriving DecidableEq, Repr

/-- The `err` of a `Get` result (`none` is nil). -/
def GetResult.err : GetResult → Option String
  | GetResult.success _ => none
  | GetResult.failure _ e => some e

/-- The `resp` of a `Get` result (`none` is nil). -/
def GetResult.resp : GetResult → Option Response
  | GetResult.success r => some r
  | GetResult.failure r _ => r

/-- Go condition `err != nil || resp.StatusCode >= 400`. -/
def GetResult.failed : GetResult → Bool
  | GetResult.success r => decide (400 ≤ r.StatusCode)
  | GetResult.failure _ _ => true

/-- Go struct `http.Client` (the field set by `get`). -/
structure HttpClient where
  Timeout : Int
deriving DecidableEq, Repr

/-- Go struct `AdaptiveRetryClient` (durations in nanoseconds; the shared
`retryBucket` is part of `Upstream`). -/
structure AdaptiveRetryClient where
  requestTimeout : Int
  enableAdaptive : Bool
  minRetryWaitTime : Int
  maxRetryWaitTime : Int
  httpClient : Option HttpClient
  retryLimit : Int
deriving DecidableEq, Repr

/-- What one call of `get` meets outside: the result of the `k`-th GET it issues,
the answer of the `k`-th `retryBucket.Allow()` it makes, and the `k`-th raw
draw of the random source. -/
structure Upstream where
  results : Nat → GetResult
  allow : Nat → Bool
  rand : Nat → Nat

/-- What one call of `get` did: GETs issued, `Allow()` calls made, sleeps taken
(nanoseconds, latest last). -/
structure GetTrace where
  gets : Nat
  allows : Nat
  sleeps : List Int
deriving DecidableEq, Repr

/-- The body of the `if` in the retry loop (lines 47-49): sleep, then GET again.
`none` is the panic of `rand.Int63n` on an argument `≤ 0`. -/
def AdaptiveRetryClient.retryOnce (r : AdaptiveRetryClient) (u : Upstream) (tr : GetTrace) :
    Option (GetResult × GetTrace) :=
  let n := r.maxRetryWaitTime - r.minRetryWaitTime
  if n ≤ 0 then none
  else
    let sleepDuration := (u.rand tr.sleeps.length : Int) % n + r.minRetryWaitTime
    some (u.results tr.gets,
      { tr with gets := tr.gets + 1, sleeps := tr.sleeps ++ [sleepDuration] })

/-- The retry loop of `get` (lines 42-51) with `retry` as loop variable and
`cur` as the current `resp, err`. `fuel` is the number of values of `retry` left
below `retryLimit`, so the loop condition is false whenever it is `0`. -/
def AdaptiveRetryClient.retryLoop (r : AdaptiveRetryClient) (u : Upstream) :
    Nat → Int → GetResult → GetTrace → Option (GetResult × GetTrace)
  | 0, _, cur, tr => some (cur, tr)
  | fuel + 1, retry, cur, tr =>
      if cur.failed ∧ retry < r.retryLimit then
        if r.enableAdaptive then
          if u.allow tr.allows then
            (r.retryOnce u { tr with allows := tr.allows + 1 }).bind
              (fun p => AdaptiveRetryClient.retryLoop r u fuel (retry + 1) p.1 p.2)
          else
            AdaptiveRetryClient.retryLoop r u fuel (retry + 1) cur { tr with allows := tr.allows + 1 }
        else
          (r.retryOnce u tr).bind
            (fun p => AdaptiveRetryClient.retryLoop r u fuel (retry + 1) p.1 p.2)
      else some (cur, tr)

/-- The lazy initialisation at the top of `get` (lines 32-37). -/
def AdaptiveRetryClient.init (r : AdaptiveRetryClient) : AdaptiveRetryClient :=
  if r.httpClient = none then
    { r with httpClient := some { Timeout := r.requestTimeout }, retryLimit := 2 }
  else r

/-- Go `(*AdaptiveRetryClient).get`: the returned `resp, err`, the client after
the call and what the call did; `none` is a panic. -/
def AdaptiveRetryClient.get (r : AdaptiveRetryClient) (u : Upstream) :
    Option (GetResult × AdaptiveRetryClient × GetTrace) :=
  let r1 := r.init
  let first := u.results 0
  (r1.retryLoop u r1.retryLimit.toNat 0 first { gets := 1, allows := 0, sleeps := [] }).map
    (fun p => (p.1, r1, p.2))

/-- Go struct `ForwardingWorker` (`statman` is not used by `process`). -/
structure ForwardingWorker where
  clientTimeout : Int
  httpClient : AdaptiveRetryClient
  forwardingUrl : String
deriving DecidableEq, Repr

/-- Nanoseconds in a millisecond (`time.Millisecond`). -/
def Millisecond : Int := 1000000

/-- Go constant `FORWARDING_SLEEP_TIME`. -/
def FORWARDING_SLEEP_TIME : Int := 10 * Millisecond

/-- Go `NewForwardingWorker` (the bucket `rate.NewLimiter(1, 20)` is part of
`Upstream`). -/
def NewForwardingWorker (forwardingUrl : String) (enableAdaptive : Bool) (clientTimeout : Int) :
    ForwardingWorker :=
  { forwardingUrl := forwardingUrl
    clientTimeout := clientTimeout
    httpClient :=
      { requestTimeout := clientTimeout
        enableAdaptive := enableAdaptive
        minRetryWaitTime := 5 * Millisecond
        maxRetryWaitTime := 50 * Millisecond
        httpClient := none
        retryLimit := 0 } }

/-- Go `ioutil.ReadAll(body)`: the slice read (never nil, `some`) and the error. -/
def ioutilReadAll (b : Body) : Option String × Option String := (some b.content, b.readErr)

/-- Go `fmt.Errorf("Upstream response code: %v %v", code, status)`. -/
def upstreamCodeError (code : Int) (status : String) : String :=
  "Upstream response code: " ++ toString code ++ " " ++ status

/-- Go `ForwardingWorker.process` after its initial sleep. `unmarshal` is
`json.Unmarshal(data, &v)`: from the bytes and the value `v` points to, the
value afterwards and the error. `none` is a panic. -/
def ForwardingWorker.process (f : ForwardingWorker) (u : Upstream)
    (unmarshal : String → HandlerResponse → HandlerResponse × Option String) :
    Option (Outcome × ForwardingWorker × GetTrace) :=
  (f.httpClient.get u).bind (fun g =>
    let f1 := { f with httpClient := g.2.1 }
    match g.1 with
    | GetResult.failure _ err =>
        some ({ msg := "Error getting URL", qos := F64.fin (-1), err := some err }, f1, g.2.2)
    | GetResult.success resp =>
        if 400 ≤ resp.StatusCode then
          some ({ msg := "Error getting URL", qos := F64.fin (-1),
                  err := some (upstreamCodeError resp.StatusCode resp.Status) }, f1, g.2.2)
        else
          match ioutilReadAll resp.Body with
          | (_, some err) =>
              some ({ msg := "Error getting URL", qos := F64.fin (-1), err := some err }, f1, g.2.2)
          | (some respBody, none) =>
              let urlResp := (unmarshal respBody HandlerResponse.zero).1
              some ({ msg := respBody, qos := urlResp.QoS, err := none }, f1, g.2.2)
          | (none, none) =>
              some ({ msg := "NO RESPONSE", qos := F64.fin (-1), err := some "No QoS found" },
                f1, g.2.2))

/-! ## statman.go: the report -/

/-- Go constant `REPORT_INTERVAL` (seconds). -/
def REPORT_INTERVAL : Nat := 4

/-- Go `x * y` on `float64`. -/
def F64.mul : F64 → F64 → F64
  | F64.nan, _ => F64.nan
  | _, F64.nan => F64.nan
  | F64.fin a, F64.fin b => F64.round (a * b)
  | F64.fin a, F64.posInf => if a = 0 then F64.nan else if 0 < a then F64.posInf else F64.negInf
  | F64.fin a, F64.negInf => if a = 0 then F64.nan else if 0 < a then F64.negInf else F64.posInf
  | F64.posInf, F64.fin b => if b = 0 then F64.nan else if 0 < b then F64.posInf else F64.negInf
  | F64.negInf, F64.fin b => if b = 0 then F64.nan else if 0 < b then F64.negInf else F64.posInf
  | F64.posInf, F64.posInf => F64.posInf
  | F64.negInf, F64.negInf => F64.posInf
  | F64.posInf, F64.negInf => F64.negInf
  | F64.negInf, F64.posInf => F64.negInf

/-- The order used by Go `sort.Float64s`: `x < y || (isNaN(x) && !isNaN(y))`. -/
def float64Less (x y : F64) : Bool := F64.lt x y || (x.isNaN && !y.isNaN)

/-- Holds when `y` is not before `x` in the order of `sort.Float64s`. -/
def float64Le (x y : F64) : Prop := float64Less y x = false

instance float64LeDecidable : DecidableRel float64Le :=
  fun x y => inferInstanceAs (Decidable (float64Less y x = false))

/-- Go `sort.Float64s(x)`: the ascending rearrangement of `x` (NaN first). -/
def sortFloat64s (x : List F64) : List F64 := x.insertionSort float64Le

/-- Go `sort.Float64sAreSorted(x)`: no element is before its predecessor. -/
def float64sAreSorted : List F64 → Bool
  | [] => true
  | [_] => true
  | a :: b :: rest => !(float64Less b a) && float64sAreSorted (b :: rest)

/-- The loop of gonum `empiricalQuantile` with nil weights: each element adds
`1` to `cumsum`, and the first one with `cumsum >= fidx` is returned; `none` is
`panic("impossible")`. -/
def empiricalQuantileLoop (fidx : F64) : F64 → List F64 → Option F64
  | _, [] => none
  | cumsum, xi :: rest =>
      let cumsum1 := F64.add cumsum (F64.fin 1)
      if F64.ge cumsum1 fidx then some xi else empiricalQuantileLoop fidx cumsum1 rest

/-- Go `stat.Quantile(p, stat.Empirical, x, nil)` of gonum; `none` is a panic. -/
def statQuantile (p : F64) (x : List F64) : Option F64 :=
  if !(F64.ge p (F64.fin 0) && F64.ge (F64.fin 1) p) then none
  else if x.length = 0 then none
  else if x.any F64.isNaN then some F64.nan
  else if !(float64sAreSorted x) then none
  else empiricalQuantileLoop (F64.mul p (F64.ofInt x.length)) (F64.fin 0) x

/-- What one call of `reportStatistics` logs. -/
structure Report where
  connections : Nat
  throughput : F64
  latencyMean : Int
  p50 : Int
  p90 : Int
  p100 : Int
  service : F64
  client : F64
  qos : F64
  cpu : Int
deriving DecidableEq

/-- The slice `latencies` of `reportStatistics` after lines 67-71. -/
def StatsManager.sortedLatencies (s : StatsManager) : List F64 :=
  if 0 < s.rqstLatencies.length then sortFloat64s s.rqstLatencies else [F64.fin 0]

/-- The variable `service` of `reportStatistics` (lines 80-83). -/
def StatsManager.serviceRate (s : StatsManager) : F64 :=
  if 0 < s.connClosed then F64.div (F64.ofInt s.rqstProcessed) (F64.ofInt s.rqstReceived)
  else F64.fin 1

/-- The variable `client` of `reportStatistics` (lines 84-87). -/
def StatsManager.clientRate (s : StatsManager) : F64 :=
  if 0 < s.connClosed then F64.div (F64.ofInt s.connProcessed) (F64.ofInt s.connClosed)
  else F64.fin 1

/-- Go `(*StatsManager).reportStatistics`: the logged values and the manager
after the reset; `cpuUsage` is what `getCpuUsage()` returned, `none` is a panic. -/
def StatsManager.reportStatistics (s : StatsManager) (cpuUsage : Int) :
    Option (Report × StatsManager) :=
  let latencies := s.sortedLatencies
  (statQuantile (F64.fin (1 / 2)) latencies).bind (fun q50 =>
  (statQuantile (F64.round (9 / 10)) latencies).bind (fun q90 =>
  (statQuantile (F64.fin 1) latencies).bind (fun q100 =>
    let qosValues := if s.qosValues.length < 1 then [F64.fin 1] else s.qosValues
    some
      ({ connections := s.connAccepted / REPORT_INTERVAL
         throughput := F32.div (F32.ofInt s.connClosed) (F32.ofInt REPORT_INTERVAL)
         latencyMean := F64.toInt64 (statMean latencies)
         p50 := F64.toInt64 q50
         p90 := F64.toInt64 q90
         p100 := F64.toInt64 q100
         service := mathMin (F64.fin 1) s.serviceRate
         client := mathMin (F64.fin 1) s.clientRate
         qos := statMean qosValues
         cpu := cpuUsage },
       { connAccepted := 0, connProcessed := 0, connClosed := 0, rqstReceived := 0,
         rqstProcessed := 0, rqstLatencies := [], qosValues := [] }))))

/-! ## The meaning of the reported latency figures -/

/-- The empirical `p`-quantile of the samples `ls`: the smallest sample `v` such
that at least the fraction `p` of the samples are `≤ v`. -/
def IsEmpiricalQuantile (p : ℚ) (ls : List Int) (v : Int) : Prop :=
  v ∈ ls ∧ p * (ls.length : ℚ) ≤ ((ls.countP (fun x => decide (x ≤ v)) : Nat) : ℚ) ∧
  ∀ w ∈ ls, p * (ls.length : ℚ) ≤ ((ls.countP (fun x => decide (x ≤ w)) : Nat) : ℚ) → v ≤ w

/-- The largest of the samples `ls`. -/
def IsMaximum (ls : List Int) (v : Int) : Prop := v ∈ ls ∧ ∀ w ∈ ls, w ≤ v

/-- The `float64` that denotes the integer `i`; it is what `float64(i)` gives for
every integer of magnitude up to `2^53`. -/
def F64.exact (i : Int) : F64 := F64.fin (i : ℚ)

/-! ## The statistics window under whole invocations -/

/-- States of the `StatsManager` reached from the empty window by whole
invocations of `defaultHandler` and whole calls of `reportStatistics`, one after
the other. -/
inductive WindowReachable : StatsManager → Prop where
  | empty : WindowReachable NewStatsManager
  | handler (srv : ServiceServer) (env : HandlerEnv) :
      WindowReachable srv.statman → WindowReachable (srv.defaultHandler env).1.statman
  | report (s s1 : StatsManager) (cpuUsage : Int) (rep : Report) :
      WindowReachable s → s.reportStatistics cpuUsage = some (rep, s1) → WindowReachable s1

/-- The counters of a window agree with the number of latency samples it holds,
as long as that number is below the wrap-around of `uint`. -/
def WindowInv (s : StatsManager) : Prop :=
  s.rqstLatencies.length < uintSize →
    s.connAccepted = s.rqstLatencies.length ∧ s.rqstReceived = s.rqstLatencies.length ∧
    s.connClosed = s.rqstLatencies.length ∧ s.rqstProcessed ≤ s.rqstLatencies.length ∧
    s.connProcessed ≤ s.rqstLatencies.length

/-- The window after two requests served one after the other by a server without
a configured worker: the first caller waits for its answer, the second worker
run fails and its caller is gone. -/
def twoRequestsWindow : StatsManager :=
  (ServiceServer.defaultHandler
    ⟨"agent", 1, 0,
      (ServiceServer.defaultHandler ⟨"agent", 1, 0, NewStatsManager⟩
        ⟨⟨1000⟩, ⟨1007⟩, BaseWorker.process, false, "rq1"⟩).1.statman⟩
    ⟨⟨1010⟩, ⟨1030⟩, ⟨"Error getting URL", F64.fin (-1), some "timeout"⟩, true, "rq2"⟩).1.statman

/-! ## Theorems: the throttle middleware -/

/-- The filling loop run for `k` rounds from empty channels. -/
theorem fillTokens_range (limit total : Nat) (bt : Int) (k : Nat) (hk : k ≤ total) :
    (List.range k).foldlM
      (fun (t : throttler) (i : Nat) => do
        let t1 ← if i < limit then (t.tokens.send).map (fun c => { t with tokens := c }) else some t
        let b ← t1.backlogTokens.send
        pure { t1 with backlogTokens := b })
      ({ tokens := Chan.make limit, backlogTokens := Chan.make total, backlogTimeout := bt } : throttler)
    = some { tokens := ⟨min k limit, limit⟩, backlogTokens := ⟨k, total⟩, backlogTimeout := bt } := by
  induction k with
  | zero => simp [Chan.make]
  | succ k ih =>
    have hk1 : k ≤ total := Nat.le_of_succ_le hk
    rw [List.range_succ, List.foldlM_append, ih hk1]
    have hkt : k < total := hk
    by_cases hlt : k < limit
    · have h1 : min k limit = k := Nat.min_eq_left (Nat.le_of_lt hlt)
      have h2 : min (k + 1) limit = k + 1 := Nat.min_eq_left hlt
      simp [Chan.send, hlt, hkt, h1, h2]
    · have hge : limit ≤ k := Nat.le_of_not_lt hlt
      have h1 : min k limit = limit := Nat.min_eq_right hge
      have h2 : min (k + 1) limit = limit := Nat.min_eq_right (Nat.le_succ_of_le hge)
      simp [Chan.send, hlt, hkt, h1, h2]

/-- The state built by `HandlerThrottle`: both channels full, no request yet. -/
theorem HandlerThrottle_eq (limit backlogLimit backlogTimeout : Int) (s0 : ThrottleState)
    (h : HandlerThrottle limit backlogLimit backlogTimeout = some s0) :
    1 ≤ limit ∧ 0 ≤ backlogLimit ∧
    s0 = { t := { tokens := ⟨limit.toNat, limit.toNat⟩
                  backlogTokens := ⟨(limit + backlogLimit).toNat, (limit + backlogLimit).toNat⟩
                  backlogTimeout := backlogTimeout }
           reqs := [] } := by
  unfold HandlerThrottle at h
  by_cases h1 : limit < 1
  · simp [h1] at h
  by_cases h2 : backlogLimit < 0
  · simp [h1, h2] at h
  by_cases h3 : (2 : Int) ^ 63 ≤ limit + backlogLimit
  · rw [if_neg h1, if_neg h2, if_pos h3] at h
    exact absurd h (by simp)
  have hle : limit.toNat ≤ (limit + backlogLimit).toNat := by omega
  have hfill := fillTokens_range limit.toNat (limit + backlogLimit).toNat backlogTimeout
    (limit + backlogLimit).toNat (Nat.le_refl _)
  rw [if_neg h1, if_neg h2, if_neg h3] at h
  unfold fillTokens at h
  rw [hfill] at h
  simp only [Option.map_some', Option.some.injEq] at h
  refine ⟨by omega, by omega, ?_⟩
  rw [← h, Nat.min_eq_right hle]

/-- Replacing the element at position `i` moves a count by the difference of the
two elements. -/
theorem countP_set_of_getElem? {α : Type} (p : α → Bool) (l : List α) (i : Nat) (a b : α)
    (h : l[i]? = some a) :
    (l.set i b).countP p + (if p a then 1 else 0) = l.countP p + (if p b then 1 else 0) := by
  induction l generalizing i with
  | nil => simp at h
  | cons x xs ih =>
    cases i with
    | zero =>
      simp only [List.getElem?_cons_zero, Option.some.injEq] at h
      subst h
      simp only [List.set_cons_zero, List.countP_cons]
      omega
    | succ j =>
      simp only [List.getElem?_cons_succ] at h
      have := ih j h
      simp only [List.set_cons_succ, List.countP_cons]
      omega

/-- Every enabled step keeps the tokens conserved. -/
theorem step_preserves_inv (L B : Nat) (s s1 : ThrottleState) (e : Event)
    (hinv : ThrottleInv L B s) (hs : step s e = some s1) : ThrottleInv L B s1 := by
  obtain ⟨hc1, hc2, ht, hb⟩ := hinv
  unfold ThrottleState.executing at ht
  unfold ThrottleState.backlogged at hb
  cases e with
  | enter ctxDone choice =>
    simp only [step, Option.some.injEq] at hs
    subst hs
    unfold enter
    split
    · refine ⟨hc1, hc2, ?_, ?_⟩
      · simp [ThrottleState.executing, Phase.inHandler]; exact ht
      · simp [ThrottleState.backlogged, Phase.holdsBacklog]; exact hb
    · split
      · rename_i c hc
        simp only [Chan.recv] at hc
        split at hc
        · rename_i hpos
          simp only [Option.some.injEq] at hc
          subst hc
          refine ⟨hc1, hc2, ?_, ?_⟩
          · simp [ThrottleState.executing, Phase.inHandler]; exact ht
          · simp [ThrottleState.backlogged, Phase.holdsBacklog]; omega
        · simp at hc
      · exact ⟨hc1, hc2, ht, hb⟩
    · refine ⟨hc1, hc2, ?_, ?_⟩
      · simp [ThrottleState.executing, Phase.inHandler]; exact ht
      · simp [ThrottleState.backlogged, Phase.holdsBacklog]; exact hb
  | acquire i =>
    simp only [step] at hs
    split at hs
    · rename_i hw
      simp only [Chan.recv] at hs
      split at hs
      · rename_i hpos
        simp only [Option.map_some', Option.some.injEq] at hs
        subst hs
        have e1 := countP_set_of_getElem? Phase.inHandler s.reqs i _ Phase.executing hw
        have e2 := countP_set_of_getElem? Phase.holdsBacklog s.reqs i _ Phase.executing hw
        simp only [Phase.inHandler, Phase.holdsBacklog] at e1 e2
        refine ⟨hc1, hc2, ?_, ?_⟩
        · simp only [ThrottleState.executing]; simp at e1 ⊢; omega
        · simp only [ThrottleState.backlogged]; simp at e2 ⊢; omega
      · simp at hs
    · simp at hs
  | timeOut i =>
    simp only [step] at hs
    split at hs
    · rename_i hw
      simp only [Option.some.injEq] at hs
      subst hs
      have e1 := countP_set_of_getElem? Phase.inHandler s.reqs i _
        (Phase.draining (some ⟨errTimedOut, StatusTooManyRequests⟩)) hw
      have e2 := countP_set_of_getElem? Phase.holdsBacklog s.reqs i _
        (Phase.draining (some ⟨errTimedOut, StatusTooManyRequests⟩)) hw
      simp only [Phase.inHandler, Phase.holdsBacklog] at e1 e2
      refine ⟨hc1, hc2, ?_, ?_⟩
      · simp only [ThrottleState.executing]; simp at e1 ⊢; omega
      · simp only [ThrottleState.backlogged]; simp at e2 ⊢; omega
    · simp at hs
  | finish i =>
    simp only [step] at hs
    split at hs
    · rename_i hw
      simp only [Chan.send] at hs
      split at hs
      · rename_i hlt
        simp only [Option.map_some', Option.some.injEq] at hs
        subst hs
        have e1 := countP_set_of_getElem? Phase.inHandler s.reqs i _ (Phase.draining none) hw
        have e2 := countP_set_of_getElem? Phase.holdsBacklog s.reqs i _ (Phase.draining none) hw
        simp only [Phase.inHandler, Phase.holdsBacklog] at e1 e2
        refine ⟨hc1, hc2, ?_, ?_⟩
        · simp only [ThrottleState.executing]; simp at e1 ⊢; omega
        · simp only [ThrottleState.backlogged]; simp at e2 ⊢; omega
      · simp at hs
    · simp at hs
  | release i =>
    simp only [step] at hs
    split at hs
    · rename_i reply hw
      simp only [Chan.send] at hs
      split at hs
      · rename_i hlt
        simp only [Option.map_some', Option.some.injEq] at hs
        subst hs
        have e1 := countP_set_of_getElem? Phase.inHandler s.reqs i _ (Phase.done reply) hw
        have e2 := countP_set_of_getElem? Phase.holdsBacklog s.reqs i _ (Phase.done reply) hw
        simp only [Phase.inHandler, Phase.holdsBacklog] at e1 e2
        refine ⟨hc1, hc2, ?_, ?_⟩
        · simp only [ThrottleState.executing]; simp at e1 ⊢; omega
        · simp only [ThrottleState.backlogged]; simp at e2 ⊢; omega
      · simp at hs
    · simp at hs

/-- The conservation law holds in every reachable state. -/
theorem reachable_inv (L B : Nat) (s0 s : ThrottleState) (h0 : ThrottleInv L B s0)
    (hr : Reachable s0 s) : ThrottleInv L B s := by
  induction hr with
  | init => exact h0
  | next e _ hstep ih => exact step_preserves_inv L B _ _ e ih hstep

/-- C1: in every state reachable from the state built by
`HandlerThrottle(limit, backlogLimit, timeout)` (where `limit` execution tokens
and `limit + backlogLimit` backlog tokens are free), at most `limit` requests are
inside the wrapped handler and at most `limit + backlogLimit` requests hold a
backlog token. -/
theorem throttle_bounds (limit backlogLimit backlogTimeout : Int) (s0 s : ThrottleState)
    (h0 : HandlerThrottle limit backlogLimit backlogTimeout = some s0) (hr : Reachable s0 s) :
    (s0.t.tokens.len : Int) = limit ∧ (s0.t.backlogTokens.len : Int) = limit + backlogLimit ∧
    (s.executing : Int) ≤ limit ∧ (s.backlogged : Int) ≤ limit + backlogLimit := by
  obtain ⟨h1, h2, hs0⟩ := HandlerThrottle_eq limit backlogLimit backlogTimeout s0 h0
  have hinv0 : ThrottleInv limit.toNat (limit + backlogLimit).toNat s0 := by
    subst hs0
    simp [ThrottleInv, ThrottleState.executing, ThrottleState.backlogged]
  obtain ⟨_, _, ht, hb⟩ := reachable_inv _ _ s0 s hinv0 hr
  subst hs0
  refine ⟨?_, ?_, ?_, ?_⟩
  · simp only; omega
  · simp only; omega
  · omega
  · omega

/-- Witness of C1: `limit = 1`, `backlogLimit = 0`, one request admitted and executing. -/
theorem throttle_bounds_witness :
    HandlerThrottle 1 0 600 = some ⟨⟨⟨1, 1⟩, ⟨1, 1⟩, 600⟩, []⟩ ∧
    Reachable ⟨⟨⟨1, 1⟩, ⟨1, 1⟩, 600⟩, []⟩ ⟨⟨⟨0, 1⟩, ⟨0, 1⟩, 600⟩, [Phase.executing]⟩ ∧
    ((1 : Nat) : Int) = 1 ∧ ((1 : Nat) : Int) = 1 + 0 ∧
    ((ThrottleState.executing ⟨⟨⟨0, 1⟩, ⟨0, 1⟩, 600⟩, [Phase.executing]⟩ : Nat) : Int) ≤ 1 ∧
    ((ThrottleState.backlogged ⟨⟨⟨0, 1⟩, ⟨0, 1⟩, 600⟩, [Phase.executing]⟩ : Nat) : Int) ≤ 1 + 0 :=
  have hr1 : Reachable ⟨⟨⟨1, 1⟩, ⟨1, 1⟩, 600⟩, []⟩ ⟨⟨⟨1, 1⟩, ⟨0, 1⟩, 600⟩, [Phase.waiting]⟩ :=
    Reachable.next (Event.enter false 0) Reachable.init (by decide)
  have hr : Reachable ⟨⟨⟨1, 1⟩, ⟨1, 1⟩, 600⟩, []⟩ ⟨⟨⟨0, 1⟩, ⟨0, 1⟩, 600⟩, [Phase.executing]⟩ :=
    Reachable.next (Event.acquire 0) hr1 (by decide)
  ⟨by decide, hr, throttle_bounds 1 0 600 _ _ (by decide) hr⟩

/-- C2: whenever no backlog token is free and the request's cancel signal has not
fired, admission answers at once with 429 "Server capacity exceeded.": the new
request is `done` without ever waiting or executing and both token pools are
unchanged. In particular with `limit = 1` and `backlogLimit = 0`, while one
request is executing a second one is rejected in this way. -/
theorem enter_capacity_exceeded (s : ThrottleState) (choice : Nat)
    (h : s.t.backlogTokens.len = 0) :
    enter s false choice =
      { t := s.t, reqs := s.reqs ++ [Phase.done (some ⟨"Server capacity exceeded.", 429⟩)] } ∧
    ∀ (backlogTimeout : Int) (c1 c2 : Nat), ∃ s0 s1 : ThrottleState,
      HandlerThrottle 1 0 backlogTimeout = some s0 ∧
      run s0 [Event.enter false c1, Event.acquire 0] = some s1 ∧
      s1.reqs = [Phase.executing] ∧
      enter s1 false c2 =
        { t := s1.t
          reqs := [Phase.executing, Phase.done (some ⟨"Server capacity exceeded.", 429⟩)] } := by
  constructor
  · simp [enter, goSelect, outerReady, h, errCapacityExceeded, StatusTooManyRequests]
  · intro bt c1 c2
    refine ⟨⟨⟨⟨1, 1⟩, ⟨1, 1⟩, bt⟩, []⟩, ⟨⟨⟨0, 1⟩, ⟨0, 1⟩, bt⟩, [Phase.executing]⟩, ?_, ?_, rfl, ?_⟩
    · simp [HandlerThrottle, fillTokens, List.range_succ, Chan.send, Chan.make]
    · simp [run, step, enter, goSelect, outerReady, Nat.mod_one, Chan.recv]
    · simp [enter, goSelect, outerReady, errCapacityExceeded, StatusTooManyRequests]

/-- Witness of C2: the throttler of `limit = 1`, `backlogLimit = 0` with its one
request executing. -/
theorem enter_capacity_exceeded_witness :
    enter ⟨⟨⟨0, 1⟩, ⟨0, 1⟩, 600⟩, [Phase.executing]⟩ false 5 =
      ⟨⟨⟨0, 1⟩, ⟨0, 1⟩, 600⟩,
        [Phase.executing, Phase.done (some ⟨"Server capacity exceeded.", 429⟩)]⟩ :=
  (enter_capacity_exceeded ⟨⟨⟨0, 1⟩, ⟨0, 1⟩, 600⟩, [Phase.executing]⟩ 5 rfl).1

/-- C3 fails as stated: in the fresh throttler of `limit = 1`, `backlogLimit = 0` a
request whose cancel signal has already fired finds two ready cases in the outer
`select`; when the pick falls on the backlog case it takes the backlog token and
goes on to wait instead of being rejected as canceled. -/
theorem enter_canceled_counterexample :
    HandlerThrottle 1 0 600 = some ⟨⟨⟨1, 1⟩, ⟨1, 1⟩, 600⟩, []⟩ ∧
    enter ⟨⟨⟨1, 1⟩, ⟨1, 1⟩, 600⟩, []⟩ true 1 = ⟨⟨⟨1, 1⟩, ⟨0, 1⟩, 600⟩, [Phase.waiting]⟩ ∧
    enter ⟨⟨⟨1, 1⟩, ⟨1, 1⟩, 600⟩, []⟩ true 1 ≠
      ⟨⟨⟨1, 1⟩, ⟨1, 1⟩, 600⟩, [Phase.done (some ⟨"Context was canceled.", 429⟩)]⟩ := by
  decide

/-- C3 as amended: a request whose cancel signal has already fired is rejected
with 429 "Context was canceled.", taking no token and never reaching the wrapped
handler, unless a backlog token is free and the pick of the outer `select` falls
on the backlog case; then it takes one backlog token (no execution token) and
waits. It is never rejected as capacity-exceeded. -/
theorem enter_canceled (s : ThrottleState) (choice : Nat) :
    enter s true choice =
      if 0 < s.t.backlogTokens.len ∧ choice % 2 = 1 then
        { t := { tokens := s.t.tokens
                 backlogTokens := ⟨s.t.backlogTokens.len - 1, s.t.backlogTokens.cap⟩
                 backlogTimeout := s.t.backlogTimeout }
          reqs := s.reqs ++ [Phase.waiting] }
      else
        { t := s.t, reqs := s.reqs ++ [Phase.done (some ⟨"Context was canceled.", 429⟩)] } := by
  by_cases hpos : 0 < s.t.backlogTokens.len
  · rcases Nat.mod_two_eq_zero_or_one choice with h0 | h1
    · simp [enter, goSelect, outerReady, hpos, h0, errContextCanceled, StatusTooManyRequests]
    · simp [enter, goSelect, outerReady, hpos, h1, Chan.recv]
  · simp [enter, goSelect, outerReady, hpos, Nat.mod_one, errContextCanceled,
      StatusTooManyRequests]


/-! ## Theorems: the dispatcher -/

/-- C4: for every worker outcome and either state of the cancel signal, one
invocation of `defaultHandler` raises the closed-connection count by exactly 1
(the counter not being at its last `uint` value) and appends exactly one latency
sample, `clockAtEnd.Since(startTime)`, to the latency sequence; when the cancel
signal has fired it calls nothing on the response writer and leaves the
processed-connection count as it was. -/
theorem defaultHandler_records (s : ServiceServer) (env : HandlerEnv)
    (hroom : s.statman.connClosed + 1 < uintSize) :
    ((s.defaultHandler env).1.statman.connClosed = s.statman.connClosed + 1 ∧
     (s.defaultHandler env).1.statman.rqstLatencies =
       s.statman.rqstLatencies ++ [F64.ofInt (env.clockAtEnd.Since env.clockAtStart.GetMillis)]) ∧
    (env.ctxDone = true →
      (s.defaultHandler env).2 = [] ∧
      (s.defaultHandler env).1.statman.connProcessed = s.statman.connProcessed) := by
  have hmod : (s.statman.connClosed + 1) % uintSize = s.statman.connClosed + 1 :=
    Nat.mod_eq_of_lt hroom
  refine ⟨⟨?_, ?_⟩, ?_⟩
  · unfold ServiceServer.defaultHandler
    by_cases hq : F64.ge env.outcome.qos (F64.fin 0) = true <;>
    by_cases he : env.outcome.err = none <;>
    cases hc : env.ctxDone <;>
    simp [hq, he, hc, hmod, StatsManager.incrAcceptedConns, StatsManager.incrReceivedRqsts,
      StatsManager.recordQoS, StatsManager.incrProcessedRqsts, StatsManager.incrProcessedConns,
      StatsManager.recordLatency, StatsManager.incrClosedConns]
  · unfold ServiceServer.defaultHandler
    by_cases hq : F64.ge env.outcome.qos (F64.fin 0) = true <;>
    by_cases he : env.outcome.err = none <;>
    cases hc : env.ctxDone <;>
    simp [hq, he, hc, StatsManager.incrAcceptedConns, StatsManager.incrReceivedRqsts,
      StatsManager.recordQoS, StatsManager.incrProcessedRqsts, StatsManager.incrProcessedConns,
      StatsManager.recordLatency, StatsManager.incrClosedConns]
  · intro hc
    unfold ServiceServer.defaultHandler
    by_cases hq : F64.ge env.outcome.qos (F64.fin 0) = true <;>
    by_cases he : env.outcome.err = none <;>
    simp [hq, he, hc, StatsManager.incrAcceptedConns, StatsManager.incrReceivedRqsts,
      StatsManager.recordQoS, StatsManager.incrProcessedRqsts, StatsManager.incrProcessedConns,
      StatsManager.recordLatency, StatsManager.incrClosedConns]

/-- Witness of C4: a fresh statistics window, the worker answered after 7 ms and
the caller is gone. -/
theorem defaultHandler_records_witness :
    (NewStatsManager.connClosed + 1 < uintSize) ∧
    ((ServiceServer.defaultHandler ⟨"agent", 1, 0, NewStatsManager⟩
        ⟨⟨1000⟩, ⟨1007⟩, BaseWorker.process, true, "rq"⟩).1.statman.connClosed = 0 + 1 ∧
     (ServiceServer.defaultHandler ⟨"agent", 1, 0, NewStatsManager⟩
        ⟨⟨1000⟩, ⟨1007⟩, BaseWorker.process, true, "rq"⟩).1.statman.rqstLatencies =
       [] ++ [F64.ofInt (Clock.Since ⟨1007⟩ 1000)]) :=
  ⟨by decide,
   (defaultHandler_records ⟨"agent", 1, 0, NewStatsManager⟩
      ⟨⟨1000⟩, ⟨1007⟩, BaseWorker.process, true, "rq"⟩ (by decide)).1⟩


/-! ## Theorems: float64 rounding -/

/-- Rounding to the nearest integer stays at or below an integer whose upper
half-way point is not reached. -/
theorem roundHalfEven_le (m : ℚ) (J : Int) (h : m < (J : ℚ) + 1 / 2) : roundHalfEven m ≤ J := by
  have hf : ((⌊m⌋ : Int) : ℚ) ≤ m := Int.floor_le m
  have h1 : ((⌊m⌋ : Int) : ℚ) < (J : ℚ) + 1 := by linarith
  have h2 : ⌊m⌋ < J + 1 := by exact_mod_cast h1
  unfold roundHalfEven
  split_ifs with c1 c2 c3
  · omega
  · have h3 : ((⌊m⌋ : Int) : ℚ) < (J : ℚ) := by linarith
    have h4 : ⌊m⌋ < J := by exact_mod_cast h3
    omega
  · omega
  · have h3 : ((⌊m⌋ : Int) : ℚ) < (J : ℚ) := by linarith
    have h4 : ⌊m⌋ < J := by exact_mod_cast h3
    omega

/-- Rounding to the nearest integer stays at or above an integer whose lower
half-way point is passed. -/
theorem roundHalfEven_ge (m : ℚ) (J : Int) (h : (J : ℚ) - 1 / 2 < m) : J ≤ roundHalfEven m := by
  have hf : m < ((⌊m⌋ : Int) : ℚ) + 1 := Int.lt_floor_add_one m
  have h1 : (J : ℚ) < ((⌊m⌋ : Int) : ℚ) + 1 + 1 := by linarith
  have h2 : J < ⌊m⌋ + 1 + 1 := by exact_mod_cast h1
  unfold roundHalfEven
  split_ifs with c1 c2 c3
  · have h3 : (J : ℚ) < ((⌊m⌋ : Int) : ℚ) + 1 := by linarith
    have h4 : J < ⌊m⌋ + 1 := by exact_mod_cast h3
    omega
  · omega
  · have h3 : (J : ℚ) < ((⌊m⌋ : Int) : ℚ) + 1 := by linarith
    have h4 : J < ⌊m⌋ + 1 := by exact_mod_cast h3
    omega
  · omega

/-- An integer rounds to itself. -/
theorem roundHalfEven_intCast (J : Int) : roundHalfEven (J : ℚ) = J :=
  le_antisymm (roundHalfEven_le _ J (by linarith)) (roundHalfEven_ge _ J (by linarith))

/-- The spacing is positive. -/
theorem ulp_pos (a : ℚ) : 0 < ulp a := zpow_pos (by norm_num) _

/-- The lower end of the binade is `2^52` spacings. -/
theorem pow_log_eq (a : ℚ) : (2 : ℚ) ^ Int.log 2 a = 2 ^ 52 * ulp a := by
  unfold ulp
  rw [← zpow_natCast (2 : ℚ) 52, ← zpow_add₀ (by norm_num : (2 : ℚ) ≠ 0)]
  congr 1
  omega

/-- The upper end of the binade is `2^53` spacings. -/
theorem pow_log_succ_eq (a : ℚ) : (2 : ℚ) ^ (Int.log 2 a + 1) = 2 ^ 53 * ulp a := by
  unfold ulp
  rw [← zpow_natCast (2 : ℚ) 53, ← zpow_add₀ (by norm_num : (2 : ℚ) ≠ 0)]
  congr 1
  omega

/-- A positive value is at least `2^52` of its spacings. -/
theorem log_le_self (a : ℚ) (ha : 0 < a) : 2 ^ 52 * ulp a ≤ a := by
  rw [← pow_log_eq]
  have := Int.zpow_log_le_self (R := ℚ) (b := 2) (by norm_num) ha
  simpa using this

/-- A value is below `2^53` of its spacings. -/
theorem self_lt_log_succ (a : ℚ) : a < 2 ^ 53 * ulp a := by
  rw [← pow_log_succ_eq]
  have := Int.lt_zpow_succ_log_self (R := ℚ) (b := 2) (by norm_num) a
  simpa using this

/-- Rounding a positive value of the normal range: the nearest multiple of the spacing. -/
theorem round_of_pos (a : ℚ) (ha : 0 < a) (hlo : -1022 ≤ Int.log 2 a) (hhi : Int.log 2 a ≤ 1022) :
    F64.round a = F64.fin ((roundHalfEven (a / ulp a) : ℚ) * ulp a) := by
  have hq := ulp_pos a
  have hm : a / ulp a < ((2 ^ 53 : Int) : ℚ) + 1 / 2 := by
    rw [div_lt_iff₀ hq]
    have := self_lt_log_succ a
    push_cast
    nlinarith
  have hn : roundHalfEven (a / ulp a) ≤ 2 ^ 53 := roundHalfEven_le _ _ hm
  have hnq : ((roundHalfEven (a / ulp a) : Int) : ℚ) ≤ 2 ^ 53 := by exact_mod_cast hn
  have hr : ((roundHalfEven (a / ulp a) : Int) : ℚ) * ulp a ≤ (2 : ℚ) ^ (Int.log 2 a + 1) := by
    rw [pow_log_succ_eq]
    exact mul_le_mul_of_nonneg_right hnq (le_of_lt hq)
  have hpow : (2 : ℚ) ^ (Int.log 2 a + 1) < (2 : ℚ) ^ ((1023 : Int) + 1) :=
    zpow_lt_zpow_right₀ (by norm_num) (by omega)
  have hk : max (Int.log 2 a) (-1022) - (((53 : Nat) : Int) - 1) = Int.log 2 a - 52 := by
    rw [max_eq_left hlo]
    norm_num
  unfold F64.round roundFloat
  simp only [abs_of_pos ha, ne_of_gt ha, if_false, hk, ha, if_true]
  rw [if_neg]
  · rfl
  · intro hover
    exact absurd (lt_of_le_of_lt hr hpow) (not_lt.mpr hover)
/-- Rounding a positive value of the normal range gives a multiple `n * ulp` of
the spacing, and `n` is on the near side of every half-way point. -/
theorem round_pos_spec (a : ℚ) (ha : 0 < a) (hlo : -1022 ≤ Int.log 2 a)
    (hhi : Int.log 2 a ≤ 1022) :
    ∃ n : Int, F64.round a = F64.fin ((n : ℚ) * ulp a) ∧
      (∀ J : Int, a < ((J : ℚ) + 1 / 2) * ulp a → n ≤ J) ∧
      (∀ J : Int, ((J : ℚ) - 1 / 2) * ulp a < a → J ≤ n) := by
  have hq := ulp_pos a
  refine ⟨roundHalfEven (a / ulp a), round_of_pos a ha hlo hhi, ?_, ?_⟩
  · intro J hJ
    exact roundHalfEven_le _ J ((div_lt_iff₀ hq).mpr hJ)
  · intro J hJ
    exact roundHalfEven_ge _ J ((lt_div_iff₀ hq).mpr hJ)

/-- A multiple of the spacing is a `float64` value. -/
theorem round_of_grid (a : ℚ) (ha : 0 < a) (hlo : -1022 ≤ Int.log 2 a)
    (hhi : Int.log 2 a ≤ 1022) (J : Int) (hJ : a = (J : ℚ) * ulp a) :
    F64.round a = F64.fin a := by
  have hq := ulp_pos a
  obtain ⟨n, hn, hle, hge⟩ := round_pos_spec a ha hlo hhi
  have h1 : n ≤ J := hle J (by nlinarith)
  have h2 : J ≤ n := hge J (by nlinarith)
  have : n = J := le_antisymm h1 h2
  rw [hn, this, ← hJ]

/-- Rounding stays within the binade. -/
theorem round_pos_bounds (a : ℚ) (ha : 0 < a) (hlo : -1022 ≤ Int.log 2 a)
    (hhi : Int.log 2 a ≤ 1022) :
    ∃ r : ℚ, F64.round a = F64.fin r ∧ (2 : ℚ) ^ Int.log 2 a ≤ r ∧
      r ≤ (2 : ℚ) ^ (Int.log 2 a + 1) := by
  have hq := ulp_pos a
  obtain ⟨n, hn, hle, hge⟩ := round_pos_spec a ha hlo hhi
  have h1 : n ≤ ((2 ^ 53 : Nat) : Int) := hle _ (by
    have := self_lt_log_succ a
    push_cast
    nlinarith)
  have h2 : ((2 ^ 52 : Nat) : Int) ≤ n := hge _ (by
    have := log_le_self a ha
    push_cast
    nlinarith)
  have h1q : (n : ℚ) ≤ 2 ^ 53 := by exact_mod_cast h1
  have h2q : (2 : ℚ) ^ 52 ≤ (n : ℚ) := by exact_mod_cast h2
  refine ⟨(n : ℚ) * ulp a, hn, ?_, ?_⟩
  · rw [pow_log_eq]
    exact mul_le_mul_of_nonneg_right h2q (le_of_lt hq)
  · rw [pow_log_succ_eq]
    exact mul_le_mul_of_nonneg_right h1q (le_of_lt hq)

/-- A lower bound by a power of two bounds the exponent from below. -/
theorem le_log_of_pow_le (a : ℚ) (ha : 0 < a) (N : Int) (h : (2 : ℚ) ^ N ≤ a) :
    N ≤ Int.log 2 a := by
  have := (Int.zpow_le_iff_le_log (R := ℚ) (b := 2) (by norm_num) (x := N) ha).mp
    (by simpa using h)
  exact this

/-- An upper bound by a power of two bounds the exponent from above. -/
theorem log_lt_of_lt_pow (a : ℚ) (ha : 0 < a) (N : Int) (h : a < (2 : ℚ) ^ N) :
    Int.log 2 a < N := by
  have := (Int.lt_zpow_iff_log_lt (R := ℚ) (b := 2) (by norm_num) (x := N) ha).mp
    (by simpa using h)
  exact this

/-- Zero is a `float64` value. -/
theorem round_zero : F64.round 0 = F64.fin 0 := by
  simp [F64.round, roundFloat]

/-- Rounding is odd. -/
theorem round_neg_of_pos (a r : ℚ) (ha : 0 < a) (h : F64.round a = F64.fin r) :
    F64.round (-a) = F64.fin (-r) := by
  have hna : ¬ (0 < -a) := by linarith
  have hne : -a ≠ 0 := by linarith
  unfold F64.round roundFloat at h ⊢
  simp only [ne_of_gt ha, if_false, ha, if_true] at h
  simp only [hne, if_false, hna, abs_neg]
  split_ifs at h with hover
  rw [if_neg hover]
  simp only [F64.fin.injEq] at h
  rw [h]

/-- A positive value between two powers of two rounds between them. -/
theorem round_between (a : ℚ) (lo hi : Int) (hlo : -1022 ≤ lo) (hhi : hi ≤ 1022)
    (h1 : (2 : ℚ) ^ lo ≤ a) (h2 : a ≤ (2 : ℚ) ^ hi) :
    ∃ r : ℚ, F64.round a = F64.fin r ∧ (2 : ℚ) ^ lo ≤ r ∧ r ≤ (2 : ℚ) ^ hi := by
  have ha : 0 < a := lt_of_lt_of_le (zpow_pos (by norm_num) _) h1
  have hl := le_log_of_pow_le a ha lo h1
  rcases eq_or_lt_of_le h2 with heq | hlt
  · have hlog : Int.log 2 a = hi := by
      rw [heq]
      have := Int.log_zpow (R := ℚ) (b := 2) (by norm_num) hi
      simpa using this
    have := round_of_grid a ha (by omega) (by omega) ((2 ^ 52 : Nat) : Int) (by
      have := pow_log_eq a
      rw [hlog] at this
      rw [heq] at this ⊢
      push_cast
      exact this)
    exact ⟨a, this, h1, h2⟩
  · have hu := log_lt_of_lt_pow a ha hi hlt
    obtain ⟨r, hr, hr1, hr2⟩ := round_pos_bounds a ha (by omega) (by omega)
    refine ⟨r, hr, le_trans (zpow_le_zpow_right₀ (by norm_num) hl) hr1,
      le_trans hr2 (zpow_le_zpow_right₀ (by norm_num) (by omega))⟩

/-- An integer is a multiple of every spacing `2 ^ k` with `k ≤ 0`. -/
theorem int_on_grid (i : Int) (k : Int) (hk : k ≤ 0) :
    ∃ J : Int, (i : ℚ) = (J : ℚ) * (2 : ℚ) ^ k := by
  refine ⟨i * 2 ^ (-k).toNat, ?_⟩
  have h2 : ((2 : ℚ) ^ (-k).toNat) = (2 : ℚ) ^ (-k) := by
    rw [← zpow_natCast]
    congr 1
    omega
  push_cast
  rw [h2, mul_assoc, ← zpow_add₀ (by norm_num : (2 : ℚ) ≠ 0)]
  simp

/-- Natural numbers up to `2^53` are `float64` values. -/
theorem round_natCast (n : Nat) (hn : n ≤ 2 ^ 53) : F64.round (n : ℚ) = F64.fin (n : ℚ) := by
  rcases Nat.eq_zero_or_pos n with h0 | hpos
  · subst h0
    simpa using round_zero
  have ha : (0 : ℚ) < (n : ℚ) := by exact_mod_cast hpos
  have h1 : (2 : ℚ) ^ (0 : Int) ≤ (n : ℚ) := by
    simp only [zpow_zero]
    exact_mod_cast hpos
  have hl := le_log_of_pow_le _ ha 0 h1
  have hq : (n : ℚ) ≤ 2 ^ 53 := by exact_mod_cast hn
  have hu : Int.log 2 (n : ℚ) < 54 := log_lt_of_lt_pow _ ha 54 (by
    have : (2 : ℚ) ^ (54 : Int) = 2 ^ 54 := by norm_num
    rw [this]
    linarith)
  by_cases h52 : Int.log 2 (n : ℚ) ≤ 52
  · obtain ⟨J, hJ⟩ := int_on_grid (n : Int) (Int.log 2 (n : ℚ) - 52) (by omega)
    exact round_of_grid _ ha (by omega) (by omega) J (by
      unfold ulp
      rw [← hJ]
      simp)
  · have he : Int.log 2 (n : ℚ) = 53 := by omega
    have hge := log_le_self (n : ℚ) ha
    have hulp : ulp (n : ℚ) = 2 := by
      unfold ulp
      rw [he]
      norm_num
    rw [hulp] at hge
    have hn53 : (n : ℚ) = 2 ^ 53 := by linarith
    exact round_of_grid _ ha (by omega) (by omega) ((2 ^ 52 : Nat) : Int) (by
      rw [hulp, hn53]
      push_cast
      norm_num)

/-- Integers of magnitude up to `2^53` are `float64` values. -/
theorem round_intCast (i : Int) (hi : i.natAbs ≤ 2 ^ 53) : F64.round (i : ℚ) = F64.fin (i : ℚ) := by
  have e1 : ((i.natAbs : Nat) : ℚ) = (((i.natAbs : Nat) : Int) : ℚ) := (Int.cast_natCast _).symm
  rcases le_or_lt 0 i with h | h
  · have hz : ((i.natAbs : Nat) : Int) = i := Int.natAbs_of_nonneg h
    have : ((i.natAbs : Nat) : ℚ) = (i : ℚ) := by rw [e1, hz]
    rw [← this]
    exact round_natCast _ hi
  · have hpos : 0 < i.natAbs := Int.natAbs_pos.mpr (by omega)
    have hq : (0 : ℚ) < ((i.natAbs : Nat) : ℚ) := by exact_mod_cast hpos
    have hz : ((i.natAbs : Nat) : Int) = -i := by omega
    have hneg : (i : ℚ) = -((i.natAbs : Nat) : ℚ) := by
      rw [e1, hz, Int.cast_neg, neg_neg]
    rw [hneg]
    exact round_neg_of_pos _ _ hq (round_natCast _ hi)

/-- Rounding keeps the order of positive values of the normal range. -/
theorem round_mono_pos (a b ra rb : ℚ) (ha : 0 < a) (hab : a ≤ b)
    (hlo : -1022 ≤ Int.log 2 a) (hhi : Int.log 2 b ≤ 1022)
    (hra : F64.round a = F64.fin ra) (hrb : F64.round b = F64.fin rb) : ra ≤ rb := by
  have hb : 0 < b := lt_of_lt_of_le ha hab
  have hlog : Int.log 2 a ≤ Int.log 2 b := Int.log_mono_right ha hab
  rcases eq_or_lt_of_le hab with heq | hlt
  · subst heq
    rw [hra] at hrb
    simp only [F64.fin.injEq] at hrb
    exact le_of_eq hrb
  rcases eq_or_lt_of_le hlog with he | he
  · have hulp : ulp a = ulp b := by unfold ulp; rw [he]
    have hq := ulp_pos b
    obtain ⟨na, hna, hlea, _⟩ := round_pos_spec a ha hlo (by omega)
    obtain ⟨nb, hnb, _, hgeb⟩ := round_pos_spec b hb (by omega) hhi
    rw [hra] at hna
    rw [hrb] at hnb
    simp only [F64.fin.injEq] at hna hnb
    have hbmid : b ≤ ((nb : ℚ) + 1 / 2) * ulp b := by
      by_contra hcon
      have := hgeb (nb + 1) (by
        push_cast
        have := not_le.mp hcon
        linarith)
      omega
    have hnab : na ≤ nb := hlea nb (by rw [hulp]; linarith)
    have : (na : ℚ) ≤ (nb : ℚ) := by exact_mod_cast hnab
    rw [hna, hnb, hulp]
    exact mul_le_mul_of_nonneg_right this (le_of_lt hq)
  · obtain ⟨r1, hr1, _, h1u⟩ := round_pos_bounds a ha hlo (by omega)
    obtain ⟨r2, hr2, h2l, _⟩ := round_pos_bounds b hb (by omega) hhi
    rw [hra] at hr1
    rw [hrb] at hr2
    simp only [F64.fin.injEq] at hr1 hr2
    rw [hr1, hr2]
    exact le_trans h1u (le_trans (zpow_le_zpow_right₀ (by norm_num) (by omega)) h2l)

/-- The rounded quotient of a natural number below `2^53` by a positive count has
the same integer part as the exact quotient. -/
theorem round_div_floor (S n : Nat) (hS : S < 2 ^ 53) (hn : 0 < n) (hn1 : n ≤ 2 ^ 53) :
    ∃ r : ℚ, F64.round ((S : ℚ) / (n : ℚ)) = F64.fin r ∧
      ((S / n : Nat) : ℚ) ≤ r ∧ r < ((S / n : Nat) : ℚ) + 1 := by
  rcases Nat.eq_zero_or_pos S with h0 | hpos
  · subst h0
    refine ⟨0, by simpa using round_zero, by simp, by simp⟩
  have hnq : (0 : ℚ) < (n : ℚ) := by exact_mod_cast hn
  have hSq : (0 : ℚ) < (S : ℚ) := by exact_mod_cast hpos
  have hS1 : (1 : ℚ) ≤ (S : ℚ) := by exact_mod_cast hpos
  have hS53 : (S : ℚ) < 2 ^ 53 := by exact_mod_cast hS
  have hn53 : (n : ℚ) ≤ 2 ^ 53 := by exact_mod_cast hn1
  have hn1q : (1 : ℚ) ≤ (n : ℚ) := by exact_mod_cast hn
  have ha : (0 : ℚ) < (S : ℚ) / (n : ℚ) := div_pos hSq hnq
  have hna : (n : ℚ) * ((S : ℚ) / (n : ℚ)) = (S : ℚ) := by field_simp
  have hlow : (2 : ℚ) ^ (-53 : Int) ≤ (S : ℚ) / (n : ℚ) := by
    rw [le_div_iff₀ hnq]
    have : (2 : ℚ) ^ (-53 : Int) = 1 / 2 ^ 53 := by norm_num
    rw [this]
    have : (1 : ℚ) / 2 ^ 53 * (n : ℚ) ≤ 1 := by
      rw [div_mul_eq_mul_div, one_mul, div_le_one (by norm_num)]
      exact hn53
    linarith
  have hupp : (S : ℚ) / (n : ℚ) < (2 : ℚ) ^ (53 : Int) := by
    rw [div_lt_iff₀ hnq]
    have : (2 : ℚ) ^ (53 : Int) = 2 ^ 53 := by norm_num
    rw [this]
    nlinarith
  have hl := le_log_of_pow_le _ ha (-53) hlow
  have hu := log_lt_of_lt_pow _ ha 53 hupp
  have hq := ulp_pos ((S : ℚ) / (n : ℚ))
  have hge := log_le_self _ ha
  obtain ⟨m, hm, hle, hge2⟩ := round_pos_spec _ ha (by omega) (by omega)
  obtain ⟨J1, hJ1⟩ := int_on_grid ((S / n : Nat) : Int) (Int.log 2 ((S : ℚ) / (n : ℚ)) - 52)
    (by omega)
  obtain ⟨J2, hJ2⟩ := int_on_grid (((S / n : Nat) : Int) + 1)
    (Int.log 2 ((S : ℚ) / (n : ℚ)) - 52) (by omega)
  have hJ1q : ((S / n : Nat) : ℚ) = (J1 : ℚ) * ulp ((S : ℚ) / (n : ℚ)) := by
    unfold ulp
    rw [← hJ1]
    exact (Int.cast_natCast _).symm
  have hJ2q : ((S / n : Nat) : ℚ) + 1 = (J2 : ℚ) * ulp ((S : ℚ) / (n : ℚ)) := by
    unfold ulp
    rw [← hJ2, Int.cast_add, Int.cast_one, Int.cast_natCast]
  have hdiv1 : (S / n) * n ≤ S := Nat.div_mul_le_self S n
  have hdiv2 : S + 1 ≤ (S / n + 1) * n := by
    have := Nat.lt_succ_iff.mpr (Nat.le_refl S)
    have h3 : S < (S / n + 1) * n := by
      rw [Nat.add_mul, Nat.one_mul]
      have := Nat.div_add_mod S n
      have hmod := Nat.mod_lt S hn
      nlinarith [Nat.mul_comm n (S / n)]
    omega
  have hq1 : ((S / n : Nat) : ℚ) ≤ (S : ℚ) / (n : ℚ) := by
    rw [le_div_iff₀ hnq]
    exact_mod_cast hdiv1
  have hq2 : (S : ℚ) / (n : ℚ) + 1 / (n : ℚ) ≤ ((S / n : Nat) : ℚ) + 1 := by
    rw [← add_div, div_le_iff₀ hnq]
    exact_mod_cast hdiv2
  have hulp : ulp ((S : ℚ) / (n : ℚ)) / 2 < 1 / (n : ℚ) := by
    rw [lt_div_iff₀ hnq]
    nlinarith
  have h1 : J1 ≤ m := hge2 J1 (by
    rw [sub_mul, ← hJ1q]
    linarith)
  have h2 : m ≤ J2 - 1 := hle (J2 - 1) (by
    push_cast
    have : ((J2 : ℚ) - 1 + 1 / 2) * ulp ((S : ℚ) / (n : ℚ)) =
        (J2 : ℚ) * ulp ((S : ℚ) / (n : ℚ)) - ulp ((S : ℚ) / (n : ℚ)) / 2 := by ring
    rw [this, ← hJ2q]
    linarith)
  have h1q : (J1 : ℚ) ≤ (m : ℚ) := by exact_mod_cast h1
  have h2q : (m : ℚ) ≤ (J2 : ℚ) - 1 := by exact_mod_cast h2
  refine ⟨(m : ℚ) * ulp ((S : ℚ) / (n : ℚ)), hm, ?_, ?_⟩
  · rw [hJ1q]
    exact mul_le_mul_of_nonneg_right h1q (le_of_lt hq)
  · rw [hJ2q]
    have := mul_le_mul_of_nonneg_right h2q (le_of_lt hq)
    linarith

/-- The `float64` nearest to 0.9. -/
theorem round_nine_tenths :
    F64.round (9 / 10) = F64.fin (8106479329266893 / 9007199254740992) := by
  have ha : (0 : ℚ) < 9 / 10 := by norm_num
  have hl := le_log_of_pow_le (9 / 10) ha (-1) (by norm_num)
  have hu := log_lt_of_lt_pow (9 / 10) ha 0 (by norm_num)
  have he : Int.log 2 (9 / 10 : ℚ) = -1 := by omega
  have hulp : ulp (9 / 10) = 1 / 9007199254740992 := by
    unfold ulp
    rw [he]
    norm_num
  obtain ⟨m, hm, hle, hge⟩ := round_pos_spec (9 / 10) ha (by omega) (by omega)
  have h1 : m ≤ 8106479329266893 := hle 8106479329266893 (by rw [hulp]; norm_num)
  have h2 : 8106479329266893 ≤ m := hge 8106479329266893 (by rw [hulp]; norm_num)
  have : m = 8106479329266893 := le_antisymm h1 h2
  rw [hm, this, hulp]
  norm_num

/-- Half of a natural number below `2^53` is a `float64` value. -/
theorem round_half_mul (n : Nat) (hn : n < 2 ^ 53) :
    F64.round ((1 / 2 : ℚ) * (n : ℚ)) = F64.fin ((1 / 2 : ℚ) * (n : ℚ)) := by
  rcases Nat.eq_zero_or_pos n with h0 | hpos
  · subst h0
    simpa using round_zero
  have hn1 : (1 : ℚ) ≤ (n : ℚ) := by exact_mod_cast hpos
  have hn53 : (n : ℚ) < 2 ^ 53 := by exact_mod_cast hn
  have ha : (0 : ℚ) < (1 / 2 : ℚ) * (n : ℚ) := by linarith
  have hl := le_log_of_pow_le _ ha (-1) (by norm_num; linarith)
  have hu := log_lt_of_lt_pow _ ha 52 (by
    have : (2 : ℚ) ^ (52 : Int) = 2 ^ 52 := by norm_num
    rw [this]
    linarith)
  obtain ⟨J, hJ⟩ := int_on_grid (n : Int) (Int.log 2 ((1 / 2 : ℚ) * (n : ℚ)) - 52 + 1) (by omega)
  have h2 : (2 : ℚ) ^ (Int.log 2 ((1 / 2 : ℚ) * (n : ℚ)) - 52 + 1) =
      (2 : ℚ) ^ (Int.log 2 ((1 / 2 : ℚ) * (n : ℚ)) - 52) * 2 := by
    rw [zpow_add₀ (by norm_num : (2 : ℚ) ≠ 0)]
    norm_num
  rw [h2, Int.cast_natCast] at hJ
  have key : (1 / 2 : ℚ) * (n : ℚ) =
      (J : ℚ) * (2 : ℚ) ^ (Int.log 2 ((1 / 2 : ℚ) * (n : ℚ)) - 52) := by
    generalize (2 : ℚ) ^ (Int.log 2 ((1 / 2 : ℚ) * (n : ℚ)) - 52) = P at hJ ⊢
    linarith
  exact round_of_grid _ ha (by omega) (by omega) J key

/-- The rounded product of the `float64` 0.9 and a count below `2^48` compares
with natural numbers as the exact `9/10` of the count does. -/
theorem round_nine_tenths_mul (n : Nat) (hn : 0 < n) (hn48 : n < 2 ^ 48) :
    ∃ r : ℚ, F64.round ((8106479329266893 / 9007199254740992 : ℚ) * (n : ℚ)) = F64.fin r ∧
      ∀ j : Nat, r ≤ (j : ℚ) ↔ (9 / 10 : ℚ) * (n : ℚ) ≤ (j : ℚ) := by
  have hn1 : (1 : ℚ) ≤ (n : ℚ) := by exact_mod_cast hn
  have hnu : (n : ℚ) < 2 ^ 48 := by exact_mod_cast hn48
  have ha : (0 : ℚ) < (8106479329266893 / 9007199254740992 : ℚ) * (n : ℚ) := by linarith
  have hl := le_log_of_pow_le _ ha (-1) (by norm_num; linarith)
  have hu := log_lt_of_lt_pow _ ha 48 (by
    have : (2 : ℚ) ^ (48 : Int) = 2 ^ 48 := by norm_num
    rw [this]
    linarith)
  have hq := ulp_pos ((8106479329266893 / 9007199254740992 : ℚ) * (n : ℚ))
  have hge := log_le_self _ ha
  have hlt := self_lt_log_succ ((8106479329266893 / 9007199254740992 : ℚ) * (n : ℚ))
  obtain ⟨m, hm, hle, hge2⟩ := round_pos_spec _ ha (by omega) (by omega)
  refine ⟨_, hm, ?_⟩
  intro j
  obtain ⟨J, hJ⟩ := int_on_grid (j : Int)
    (Int.log 2 ((8106479329266893 / 9007199254740992 : ℚ) * (n : ℚ)) - 52) (by omega)
  have hJq : (j : ℚ) =
      (J : ℚ) * ulp ((8106479329266893 / 9007199254740992 : ℚ) * (n : ℚ)) := by
    unfold ulp
    rw [← hJ]
    exact (Int.cast_natCast _).symm
  generalize ulp ((8106479329266893 / 9007199254740992 : ℚ) * (n : ℚ)) = u at *
  constructor
  · intro hr
    by_contra hcon
    have hlt2 : (j : ℚ) < (9 / 10 : ℚ) * (n : ℚ) := not_le.mp hcon
    have hnat : 10 * j < 9 * n := by
      have : (10 : ℚ) * (j : ℚ) < 9 * (n : ℚ) := by linarith
      exact_mod_cast this
    have hnat2 : 10 * j + 1 ≤ 9 * n := hnat
    have hq2 : (10 : ℚ) * (j : ℚ) + 1 ≤ 9 * (n : ℚ) := by exact_mod_cast hnat2
    have hm1 : J + 1 ≤ m := hge2 (J + 1) (by
      push_cast
      have : ((J : ℚ) + 1 - 1 / 2) * u = (J : ℚ) * u + u / 2 := by ring
      rw [this, ← hJq]
      linarith)
    have hm1q : (J : ℚ) + 1 ≤ (m : ℚ) := by exact_mod_cast hm1
    have := mul_le_mul_of_nonneg_right hm1q (le_of_lt hq)
    rw [add_mul, ← hJq] at this
    linarith
  · intro hspec
    have hmJ : m ≤ J := hle J (by
      have : ((J : ℚ) + 1 / 2) * u = (J : ℚ) * u + u / 2 := by ring
      rw [this, ← hJq]
      linarith)
    have hmJq : (m : ℚ) ≤ (J : ℚ) := by exact_mod_cast hmJ
    have := mul_le_mul_of_nonneg_right hmJq (le_of_lt hq)
    rw [← hJq] at this
    exact this

/-! ## Theorems: the compute worker -/

set_option maxRecDepth 100000 in
/-- One unit of reference workload always reports 4271 (and the quota is 48 units). -/
theorem makeBinaryTrees_eq : makeBinaryTrees = 4271 ∧ busyWorkCalls = 48 * 4271 := by
  decide

/-- Adding one more unit to the `uint64` sum of `j` units. -/
theorem unitsWork_succ (j : Nat) : (unitsWork j + makeBinaryTrees) % uintSize = unitsWork (j + 1) := by
  unfold unitsWork
  generalize makeBinaryTrees = m
  rw [Nat.mod_add_mod, Nat.add_mul, Nat.one_mul]

/-- The loop runs one unit at every reading at which its condition holds and
exits at the first reading at which it fails. -/
theorem processLoop_run (t : TerminalWorker) (start c : Clock) (post : List Clock) :
    ∀ (pre : List Clock) (j : Nat),
      (∀ (k : Nat) (hk : k < pre.length), t.continues start pre[k] (unitsWork (j + k))) →
      ¬ t.continues start c (unitsWork (j + pre.length)) →
      t.processLoop start.GetMillis (unitsWork j) (pre ++ c :: post) =
        some (unitsWork (j + pre.length), c.Since start.GetMillis) := by
  intro pre
  induction pre with
  | nil =>
    intro j _ hexit
    simp only [List.length_nil, Nat.add_zero, TerminalWorker.continues] at hexit
    simp only [List.nil_append, TerminalWorker.processLoop, List.length_nil, Nat.add_zero]
    rw [if_neg hexit]
  | cons p ps ih =>
    intro j hrun hexit
    have h0 := hrun 0 (Nat.succ_pos _)
    simp only [List.getElem_cons_zero, Nat.add_zero, TerminalWorker.continues] at h0
    simp only [List.cons_append, TerminalWorker.processLoop]
    rw [if_pos h0, unitsWork_succ]
    have hlen : j + (p :: ps).length = j + 1 + ps.length := by
      simp only [List.length_cons]
      omega
    rw [hlen] at hexit ⊢
    refine ih (j + 1) ?_ hexit
    intro k hk
    have := hrun (k + 1) (Nat.succ_lt_succ hk)
    have e : j + (k + 1) = j + 1 + k := by omega
    rw [e] at this
    exact this

/-- Whenever the loop exits, the readings split into those at which it ran a unit
and the one at which it left. -/
theorem processLoop_split (t : TerminalWorker) (start : Clock) (clocks : List Clock) :
    ∀ (j : Nat) (r : Nat × Int),
      t.processLoop start.GetMillis (unitsWork j) clocks = some r →
      ∃ (pre : List Clock) (c : Clock) (post : List Clock), clocks = pre ++ c :: post ∧
        (∀ (k : Nat) (hk : k < pre.length), t.continues start pre[k] (unitsWork (j + k))) ∧
        ¬ t.continues start c (unitsWork (j + pre.length)) := by
  induction clocks with
  | nil => intro j r h; simp [TerminalWorker.processLoop] at h
  | cons c cs ih =>
    intro j r h
    by_cases hc : t.continues start c (unitsWork j)
    · simp only [TerminalWorker.processLoop] at h
      rw [if_pos (by simpa only [TerminalWorker.continues] using hc), unitsWork_succ] at h
      obtain ⟨pre, c1, post, hsplit, hrun, hexit⟩ := ih (j + 1) r h
      refine ⟨c :: pre, c1, post, by rw [hsplit]; rfl, ?_, ?_⟩
      · intro k hk
        rcases k with _ | k
        · exact hc
        · have := hrun k (by simpa using hk)
          have e : j + (k + 1) = j + 1 + k := by omega
          rw [e]
          exact this
      · have e : j + (c :: pre).length = j + 1 + pre.length := by
          simp only [List.length_cons]
          omega
        rw [e]
        exact hexit
    · exact ⟨[], c, cs, rfl, fun k hk => absurd hk (Nat.not_lt_zero k), hc⟩

/-- The loop exits at the latest at the first reading at which the deadline has passed. -/
theorem processLoop_isSome (t : TerminalWorker) (st : Int) (clocks : List Clock)
    (h : ∃ c ∈ clocks, t.clientDeadlineCutoff ≤ c.Since st) :
    ∀ w : Nat, (t.processLoop st w clocks).isSome = true := by
  induction clocks with
  | nil => simp at h
  | cons c cs ih =>
    intro w
    simp only [TerminalWorker.processLoop]
    split
    · rename_i hcond
      obtain ⟨c1, hc1, hle⟩ := h
      rcases List.mem_cons.mp hc1 with heq | hmem
      · subst heq
        exact absurd hcond.1 (not_lt.mpr hle)
      · exact ih ⟨c1, hmem, hle⟩ _
    · rfl

/-- The quota as a `float64`. -/
theorem ofInt_busyWorkCalls : F64.ofInt (busyWorkCalls : Int) = F64.fin 205008 := by
  have := round_natCast 205008 (by norm_num)
  unfold F64.ofInt busyWorkCalls
  simpa using this

/-- The QoS computed from a `uint64` amount of work is a finite value between 0
and 1: 0 for no work, 1 once the quota is reached. -/
theorem qos_range (w : Nat) (hw : w < uintSize) :
    ∃ q : ℚ, mathMin (F64.fin 1) (F64.div (F64.ofInt (w : Int)) (F64.ofInt (busyWorkCalls : Int))) =
        F64.fin q ∧ 0 ≤ q ∧ q ≤ 1 ∧ (w = 0 → q = 0) ∧ (busyWorkCalls ≤ w → q = 1) := by
  rw [ofInt_busyWorkCalls]
  rcases Nat.eq_zero_or_pos w with h0 | hpos
  · subst h0
    refine ⟨0, ?_, le_refl 0, by norm_num, fun _ => rfl, fun h => ?_⟩
    · simp [F64.ofInt, round_zero, F64.div, floatDiv, mathMin, F64.lt]
    · exact absurd h (by decide)
  have hw1 : (1 : ℚ) ≤ (w : ℚ) := by exact_mod_cast hpos
  have hw64 : (w : ℚ) ≤ 2 ^ 64 := by
    have : w ≤ 2 ^ 64 := le_of_lt hw
    exact_mod_cast this
  obtain ⟨rw, hrw, hrw1, hrw2⟩ := round_between (w : ℚ) 0 64 (by norm_num) (by norm_num)
    (by simpa using hw1) (by
      have : (2 : ℚ) ^ (64 : Int) = 2 ^ 64 := by norm_num
      rw [this]
      exact hw64)
  have hrw1' : (1 : ℚ) ≤ rw := by simpa using hrw1
  have hrw2' : rw ≤ 2 ^ 64 := by
    have : (2 : ℚ) ^ (64 : Int) = 2 ^ 64 := by norm_num
    rw [this] at hrw2
    exact hrw2
  have hofInt : F64.ofInt (w : Int) = F64.fin rw := by
    unfold F64.ofInt
    rw [Int.cast_natCast]
    exact hrw
  have hne : (205008 : ℚ) ≠ 0 := by norm_num
  obtain ⟨r, hr, hr1, hr2⟩ := round_between (rw / 205008) (-18) 47 (by norm_num) (by norm_num)
    (by
      rw [le_div_iff₀ (by norm_num)]
      have : (2 : ℚ) ^ (-18 : Int) * 205008 ≤ 1 := by norm_num
      linarith)
    (by
      rw [div_le_iff₀ (by norm_num)]
      have : (2 : ℚ) ^ (64 : ℕ) ≤ (2 : ℚ) ^ (47 : Int) * 205008 := by norm_num
      linarith)
  have hr0 : (0 : ℚ) < r := lt_of_lt_of_le (zpow_pos (by norm_num) _) hr1
  have hdiv : F64.div (F64.fin rw) (F64.fin 205008) = F64.fin r := by
    simp only [F64.div, floatDiv, ne_eq, hne, not_false_eq_true, if_true]
    exact hr
  rw [hofInt, hdiv]
  by_cases h1r : (1 : ℚ) < r
  · refine ⟨1, ?_, by norm_num, le_refl 1, fun h => absurd h (by omega), fun _ => rfl⟩
    simp [mathMin, F64.lt, h1r]
  · have hr1le : r ≤ 1 := not_lt.mp h1r
    refine ⟨r, ?_, le_of_lt hr0, hr1le, fun h => absurd h (by omega), fun hq => ?_⟩
    · simp [mathMin, F64.lt, h1r]
    · have hq1 : (205008 : ℚ) ≤ (w : ℚ) := by
        have : (205008 : Nat) ≤ w := hq
        exact_mod_cast this
      have hmono := round_mono_pos 205008 (w : ℚ) 205008 rw (by norm_num) hq1
        (by
          have := le_log_of_pow_le 205008 (by norm_num) 0 (by norm_num)
          omega)
        (by
          have := log_lt_of_lt_pow (w : ℚ) (by linarith) 65 (by
            have : (2 : ℚ) ^ (65 : Int) = 2 ^ 65 := by norm_num
            rw [this]
            linarith)
          omega)
        (by
          have := round_natCast 205008 (by norm_num)
          simpa using this)
        hrw
      obtain ⟨r', hr', hr1', _⟩ := round_between (rw / 205008) 0 47 (by norm_num) (by norm_num)
        (by
          rw [zpow_zero, le_div_iff₀ (by norm_num)]
          linarith)
        (by
          rw [div_le_iff₀ (by norm_num)]
          have : (2 : ℚ) ^ (64 : ℕ) ≤ (2 : ℚ) ^ (47 : Int) * 205008 := by norm_num
          linarith)
      rw [hr] at hr'
      simp only [F64.fin.injEq] at hr'
      rw [← hr', zpow_zero] at hr1'
      linarith

/-- The `uint64` sum of units is a `uint64`. -/
theorem unitsWork_lt (n : Nat) : unitsWork n < uintSize :=
  Nat.mod_lt _ (by decide)

/-- C5: for every deadline cutoff and every sequence of clock readings,
`TerminalWorker.process` returns as soon as the loop condition fails at a
reading, and it does so at the latest at the first reading that has reached the
deadline; what it returns is the message "Rooted", a nil error and
QoS = min(1.0, float64(workDone) / float64(205008)), where `workDone` is the
`uint64` sum of the results of the units it executed, one at each reading before
that one; the QoS is a finite value with 0 ≤ QoS ≤ 1, equal to 1 once the quota is
reached. -/
theorem process_result (t : TerminalWorker) (start : Clock) :
    (∀ (pre : List Clock) (c : Clock) (post : List Clock),
      (∀ (k : Nat) (hk : k < pre.length), t.continues start pre[k] (unitsWork k)) →
      ¬ t.continues start c (unitsWork pre.length) →
      t.process start (pre ++ c :: post) =
        some { msg := "Rooted"
               qos := mathMin (F64.fin 1)
                 (F64.div (F64.ofInt (unitsWork pre.length)) (F64.ofInt busyWorkCalls))
               err := none }) ∧
    (∀ (clocks : List Clock) (o : Outcome), t.process start clocks = some o →
      o.msg = "Rooted" ∧ o.err = none ∧
      ∃ (n : Nat) (q : ℚ), n < clocks.length ∧
        (∀ k : Nat, k < n → ∀ hl : k < clocks.length,
          t.continues start clocks[k] (unitsWork k)) ∧
        (∀ hl : n < clocks.length, ¬ t.continues start clocks[n] (unitsWork n)) ∧
        o.qos = mathMin (F64.fin 1)
          (F64.div (F64.ofInt (unitsWork n)) (F64.ofInt busyWorkCalls)) ∧
        o.qos = F64.fin q ∧ 0 ≤ q ∧ q ≤ 1 ∧ (busyWorkCalls ≤ unitsWork n → q = 1)) ∧
    (∀ clocks : List Clock,
      (∃ c ∈ clocks, t.clientDeadlineCutoff ≤ c.Since start.GetMillis) →
      (t.process start clocks).isSome = true) := by
  have h0 : unitsWork 0 = 0 := by simp [unitsWork]
  have part1 : ∀ (pre : List Clock) (c : Clock) (post : List Clock),
      (∀ (k : Nat) (hk : k < pre.length), t.continues start pre[k] (unitsWork k)) →
      ¬ t.continues start c (unitsWork pre.length) →
      t.process start (pre ++ c :: post) =
        some { msg := "Rooted"
               qos := mathMin (F64.fin 1)
                 (F64.div (F64.ofInt (unitsWork pre.length)) (F64.ofInt busyWorkCalls))
               err := none } := by
    intro pre c post hrun hexit
    have hloop := processLoop_run t start c post pre 0
      (fun k hk => by rw [Nat.zero_add]; exact hrun k hk)
      (by rw [Nat.zero_add]; exact hexit)
    rw [h0, Nat.zero_add] at hloop
    unfold TerminalWorker.process
    rw [hloop]
    rfl
  refine ⟨part1, ?_, ?_⟩
  · intro clocks o ho
    have hsome : ∃ r, t.processLoop start.GetMillis 0 clocks = some r := by
      unfold TerminalWorker.process at ho
      cases hl : t.processLoop start.GetMillis 0 clocks with
      | none => rw [hl] at ho; simp at ho
      | some r => exact ⟨r, rfl⟩
    obtain ⟨r, hr⟩ := hsome
    rw [← h0] at hr
    obtain ⟨pre, c, post, hsplit, hrun, hexit⟩ := processLoop_split t start clocks 0 r hr
    simp only [Nat.zero_add] at hrun hexit
    have hproc := part1 pre c post hrun hexit
    rw [← hsplit, ho] at hproc
    simp only [Option.some.injEq] at hproc
    obtain ⟨q, hq, hq0, hq1, _, hqfull⟩ := qos_range (unitsWork pre.length) (unitsWork_lt _)
    subst hsplit
    have hqos : o.qos = mathMin (F64.fin 1)
        (F64.div (F64.ofInt (unitsWork pre.length)) (F64.ofInt busyWorkCalls)) := by
      rw [hproc]
    refine ⟨by rw [hproc], by rw [hproc], pre.length, q, by simp, ?_, ?_, hqos, hqos.trans hq,
      hq0, hq1, hqfull⟩
    · intro k hk hl
      have := hrun k hk
      rw [List.getElem_append_left hk]
      exact this
    · intro hl
      rw [List.getElem_append_right (Nat.le_refl _)]
      simpa using hexit
  · intro clocks h
    unfold TerminalWorker.process
    have := processLoop_isSome t start.GetMillis clocks h 0
    cases hl : t.processLoop start.GetMillis 0 clocks with
    | none => rw [hl] at this; simp at this
    | some r => simp

set_option maxRecDepth 100000 in
/-- Witness of C5: cutoff 1000 ms, a clock that stands still for three readings
and then jumps past the deadline: three units are executed, 12813 in all, and
the QoS is the `float64` quotient of 12813 by 205008. -/
theorem process_result_witness :
    TerminalWorker.process ⟨0, 1000⟩ ⟨0⟩ ([⟨0⟩, ⟨0⟩, ⟨0⟩] ++ ⟨2000⟩ :: []) =
      some { msg := "Rooted"
             qos := mathMin (F64.fin 1)
               (F64.div (F64.ofInt (unitsWork ([⟨0⟩, ⟨0⟩, ⟨0⟩] : List Clock).length))
                 (F64.ofInt busyWorkCalls))
             err := none } ∧
    unitsWork ([⟨0⟩, ⟨0⟩, ⟨0⟩] : List Clock).length = 12813 :=
  ⟨(process_result ⟨0, 1000⟩ ⟨0⟩).1 [⟨0⟩, ⟨0⟩, ⟨0⟩] ⟨2000⟩ []
      (fun k hk => by
        have hread : ([⟨0⟩, ⟨0⟩, ⟨0⟩] : List Clock)[k] = ⟨0⟩ := by
          match k, hk with
          | 0, _ => rfl
          | 1, _ => rfl
          | 2, _ => rfl
        unfold TerminalWorker.continues
        rw [hread]
        exact ⟨by decide, Or.inr (by decide)⟩)
      (fun h => absurd h.1 (by decide)),
    by decide⟩

/-- C6, what the code does: with `clientDeadlineCutoff = 0` and a clock that has
not gone back, the loop condition `timeDiff < 0` fails at the first reading, so
`process` returns at once, whatever the elapsed time, with no work done and
QoS 0. -/
theorem process_cutoff_zero (t : TerminalWorker) (start c : Clock) (cs : List Clock)
    (hcut : t.clientDeadlineCutoff = 0) (hmono : 0 ≤ c.Since start.GetMillis) :
    t.processLoop start.GetMillis 0 (c :: cs) = some (0, c.Since start.GetMillis) ∧
    t.process start (c :: cs) = some { msg := "Rooted", qos := F64.fin 0, err := none } := by
  have hloop : t.processLoop start.GetMillis 0 (c :: cs) = some (0, c.Since start.GetMillis) := by
    simp only [TerminalWorker.processLoop, hcut]
    rw [if_neg]
    intro hcond
    exact absurd hcond.1 (not_lt.mpr hmono)
  refine ⟨hloop, ?_⟩
  obtain ⟨q, hq, _, _, hz, _⟩ := qos_range 0 (by decide)
  have hq0 : q = 0 := hz rfl
  subst hq0
  unfold TerminalWorker.process
  rw [hloop]
  simp only [Option.map_some']
  rw [hq]

/-- Witness of C6: cutoff 0 and no time elapsed at the first reading: the call
returns with `timeDiff = 0`, before the 15 ms floor, and QoS 0. -/
theorem process_cutoff_zero_witness :
    (0 : Int) ≤ Clock.Since ⟨1000⟩ (Clock.GetMillis ⟨1000⟩) ∧
    Clock.Since ⟨1000⟩ (Clock.GetMillis ⟨1000⟩) < TERMINAL_SLEEP_TIME ∧
    (TerminalWorker.processLoop ⟨10000, 0⟩ (Clock.GetMillis ⟨1000⟩) 0 [⟨1000⟩] =
        some (0, Clock.Since ⟨1000⟩ (Clock.GetMillis ⟨1000⟩)) ∧
      TerminalWorker.process ⟨10000, 0⟩ ⟨1000⟩ [⟨1000⟩] =
        some { msg := "Rooted", qos := F64.fin 0, err := none }) :=
  ⟨by decide, by decide, process_cutoff_zero ⟨10000, 0⟩ ⟨1000⟩ ⟨1000⟩ [] rfl (by decide)⟩

/-! ## Theorems: the retry client -/

/-- After the lazy initialisation the retry limit is 2 and the configuration is
the one the client was built with. -/
theorem init_retryLimit (r : AdaptiveRetryClient) (hlim : r.httpClient = none ∨ r.retryLimit = 2) :
    r.init.retryLimit = 2 ∧ r.init.enableAdaptive = r.enableAdaptive ∧
    r.init.minRetryWaitTime = r.minRetryWaitTime ∧ r.init.maxRetryWaitTime = r.maxRetryWaitTime := by
  unfold AdaptiveRetryClient.init
  by_cases h : r.httpClient = none
  · simp [h]
  · rcases hlim with h1 | h2
    · exact absurd h1 h
    · simp [h, h2]

/-- The two rounds of the retry loop written out. -/
theorem get_unfold (r : AdaptiveRetryClient) (u : Upstream)
    (hlim : r.httpClient = none ∨ r.retryLimit = 2)
    (hwait : r.minRetryWaitTime < r.maxRetryWaitTime) :
    r.get u = some
      (if (u.results 0).failed = true then
        if r.enableAdaptive = true then
          if u.allow 0 = true then
            if (u.results 1).failed = true then
              if u.allow 1 = true then
                (u.results 2, r.init, ⟨3, 2,
                  [(u.rand 0 : Int) % (r.maxRetryWaitTime - r.minRetryWaitTime) + r.minRetryWaitTime,
                   (u.rand 1 : Int) % (r.maxRetryWaitTime - r.minRetryWaitTime) + r.minRetryWaitTime]⟩)
              else
                (u.results 1, r.init, ⟨2, 2,
                  [(u.rand 0 : Int) % (r.maxRetryWaitTime - r.minRetryWaitTime) + r.minRetryWaitTime]⟩)
            else
              (u.results 1, r.init, ⟨2, 1,
                [(u.rand 0 : Int) % (r.maxRetryWaitTime - r.minRetryWaitTime) + r.minRetryWaitTime]⟩)
          else
            if u.allow 1 = true then
              (u.results 1, r.init, ⟨2, 2,
                [(u.rand 0 : Int) % (r.maxRetryWaitTime - r.minRetryWaitTime) + r.minRetryWaitTime]⟩)
            else (u.results 0, r.init, ⟨1, 2, []⟩)
        else
          if (u.results 1).failed = true then
            (u.results 2, r.init, ⟨3, 0,
              [(u.rand 0 : Int) % (r.maxRetryWaitTime - r.minRetryWaitTime) + r.minRetryWaitTime,
               (u.rand 1 : Int) % (r.maxRetryWaitTime - r.minRetryWaitTime) + r.minRetryWaitTime]⟩)
          else
            (u.results 1, r.init, ⟨2, 0,
              [(u.rand 0 : Int) % (r.maxRetryWaitTime - r.minRetryWaitTime) + r.minRetryWaitTime]⟩)
      else (u.results 0, r.init, ⟨1, 0, []⟩)) := by
  obtain ⟨hl, he, hmin, hmax⟩ := init_retryLimit r hlim
  have hn : ¬ (r.maxRetryWaitTime - r.minRetryWaitTime ≤ 0) := by omega
  unfold AdaptiveRetryClient.get
  simp only [hl, show (2 : Int).toNat = 2 from rfl, AdaptiveRetryClient.retryLoop,
    AdaptiveRetryClient.retryOnce, he, hmin, hmax, if_neg hn]
  cases hea : r.enableAdaptive <;> cases h0 : (u.results 0).failed <;>
    cases h1 : (u.results 1).failed <;> cases a0 : u.allow 0 <;> cases a1 : u.allow 1 <;>
    simp [h0, h1, a0, a1]

/-- C7: for a client whose retry limit is the one `get` initialises (2) and whose
backoff range is not empty, over every sequence of upstream results: the call
returns the result of the last GET it issued; with `enableAdaptive = false` it
never asks the bucket and issues 1 + min(2, k) GETs, `k` being the number of
leading failed results; with `enableAdaptive = true` and a bucket that denies
every request it issues exactly 1 GET. -/
theorem get_retry_count (r : AdaptiveRetryClient) (u : Upstream)
    (hlim : r.httpClient = none ∨ r.retryLimit = 2)
    (hwait : r.minRetryWaitTime < r.maxRetryWaitTime) :
    ∃ (res : GetResult) (r1 : AdaptiveRetryClient) (tr : GetTrace),
      r.get u = some (res, r1, tr) ∧ 1 ≤ tr.gets ∧ res = u.results (tr.gets - 1) ∧
      (r.enableAdaptive = false →
        tr.allows = 0 ∧
        ∀ k : Nat, (∀ i, i < k → (u.results i).failed = true) →
          (2 ≤ k ∨ (u.results k).failed = false) → tr.gets = 1 + min 2 k) ∧
      (r.enableAdaptive = true → (∀ k, u.allow k = false) → tr.gets = 1) := by
  rcases hg : r.get u with _ | ⟨res, r1, tr⟩
  · rw [get_unfold r u hlim hwait] at hg
    exact absurd hg (by simp)
  · rw [get_unfold r u hlim hwait] at hg
    simp only [Option.some.injEq] at hg
    refine ⟨res, r1, tr, rfl, ?_⟩
    cases hea : r.enableAdaptive
    · cases h0 : (u.results 0).failed
      · simp only [h0, Bool.false_eq_true, if_false, Prod.mk.injEq] at hg
        obtain ⟨rfl, _, rfl⟩ := hg
        refine ⟨Nat.le_refl _, rfl, fun _ => ⟨rfl, ?_⟩, fun h => absurd h (by simp)⟩
        intro k hpre _
        rcases k with _ | k
        · rfl
        · have := hpre 0 (Nat.succ_pos k)
          rw [h0] at this
          exact absurd this (by simp)
      · cases h1 : (u.results 1).failed
        · simp only [h0, h1, hea, Bool.false_eq_true, if_false, if_true, Prod.mk.injEq] at hg
          obtain ⟨rfl, _, rfl⟩ := hg
          refine ⟨by simp, rfl, fun _ => ⟨rfl, ?_⟩, fun h => absurd h (by simp)⟩
          intro k hpre hk
          rcases k with _ | _ | k
          · rcases hk with hk | hk
            · omega
            · rw [h0] at hk; exact absurd hk (by simp)
          · rfl
          · have := hpre 1 (by omega)
            rw [h1] at this
            exact absurd this (by simp)
        · simp only [h0, h1, hea, Bool.false_eq_true, if_false, if_true, Prod.mk.injEq] at hg
          obtain ⟨rfl, _, rfl⟩ := hg
          refine ⟨by simp, rfl, fun _ => ⟨rfl, ?_⟩, fun h => absurd h (by simp)⟩
          intro k hpre hk
          rcases k with _ | _ | k
          · rcases hk with hk | hk
            · omega
            · rw [h0] at hk; exact absurd hk (by simp)
          · rcases hk with hk | hk
            · omega
            · rw [h1] at hk; exact absurd hk (by simp)
          · simp
    · refine ⟨?_, ?_, fun h => absurd h (by simp), ?_⟩
      · cases h0 : (u.results 0).failed <;> cases h1 : (u.results 1).failed <;>
          cases a0 : u.allow 0 <;> cases a1 : u.allow 1 <;>
          simp only [h0, h1, hea, a0, a1, Bool.false_eq_true, if_false, if_true,
            Prod.mk.injEq] at hg <;>
          obtain ⟨_, _, rfl⟩ := hg <;> simp
      · cases h0 : (u.results 0).failed <;> cases h1 : (u.results 1).failed <;>
          cases a0 : u.allow 0 <;> cases a1 : u.allow 1 <;>
          simp only [h0, h1, hea, a0, a1, Bool.false_eq_true, if_false, if_true,
            Prod.mk.injEq] at hg <;>
          obtain ⟨rfl, _, rfl⟩ := hg <;> rfl
      · intro _ hall
        cases h0 : (u.results 0).failed <;>
          simp only [h0, hea, hall 0, hall 1, Bool.false_eq_true, if_false, if_true,
            Prod.mk.injEq] at hg <;>
          obtain ⟨_, _, rfl⟩ := hg <;> rfl

/-- Witness of C7: the client built by `NewForwardingWorker` without adaptive
retries, against an upstream that always answers 503. -/
theorem get_retry_count_witness :
    ∃ (res : GetResult) (r1 : AdaptiveRetryClient) (tr : GetTrace),
      (NewForwardingWorker "http://up" false 200000000).httpClient.get
        ⟨fun _ => GetResult.success ⟨503, "503 Service Unavailable", ⟨"", none⟩⟩,
         fun _ => false, fun _ => 0⟩ = some (res, r1, tr) ∧
      tr.gets = 3 ∧ tr.allows = 0 :=
  match get_retry_count (NewForwardingWorker "http://up" false 200000000).httpClient
      ⟨fun _ => GetResult.success ⟨503, "503 Service Unavailable", ⟨"", none⟩⟩,
       fun _ => false, fun _ => 0⟩ (Or.inl rfl) (by decide) with
  | ⟨res, r1, tr, hget, _, _, hoff, _⟩ =>
      ⟨res, r1, tr, hget, (hoff rfl).2 2 (fun _ _ => rfl) (Or.inl (Nat.le_refl 2)), (hoff rfl).1⟩

/-- C8 fails as stated: with adaptive retries, a first attempt that fails, a
bucket that denies the first token request and grants the second, the call asks
the bucket a second time after the denial and then issues a second GET, whose
answer it returns. -/
theorem get_denied_counterexample :
    Upstream.allow ⟨fun k => if k = 0 then GetResult.failure none "timeout"
                      else GetResult.success ⟨200, "200 OK", ⟨"", none⟩⟩,
                    fun k => decide (k = 1), fun _ => 0⟩ 0 = false ∧
    (NewForwardingWorker "http://up" true 200000000).httpClient.get
      ⟨fun k => if k = 0 then GetResult.failure none "timeout"
                else GetResult.success ⟨200, "200 OK", ⟨"", none⟩⟩,
       fun k => decide (k = 1), fun _ => 0⟩ =
    some (GetResult.success ⟨200, "200 OK", ⟨"", none⟩⟩,
      ⟨200000000, true, 5000000, 50000000, some ⟨200000000⟩, 2⟩,
      ⟨2, 2, [5000000]⟩) := by
  decide

/-- C8 as amended: with adaptive retries, a denied token request only skips the
GET of that retry round; the loop goes on while rounds remain, asking the bucket
again, and a granted token is followed by a GET. In every call at most 2 tokens
are requested, one GET is issued plus one per granted token, a call whose first
token request is denied after a failed first GET requests a second token and
issues a second GET exactly when that one is granted, and the result of the
most recent GET is returned as it is. -/
theorem get_adaptive (r : AdaptiveRetryClient) (u : Upstream)
    (hlim : r.httpClient = none ∨ r.retryLimit = 2)
    (hwait : r.minRetryWaitTime < r.maxRetryWaitTime) (hea : r.enableAdaptive = true) :
    ∃ (res : GetResult) (r1 : AdaptiveRetryClient) (tr : GetTrace),
      r.get u = some (res, r1, tr) ∧ res = u.results (tr.gets - 1) ∧ tr.allows ≤ 2 ∧
      tr.gets = 1 + ((List.range tr.allows).filter u.allow).length ∧
      ((u.results 0).failed = true → u.allow 0 = false →
        tr.allows = 2 ∧ tr.gets = if u.allow 1 = true then 2 else 1) := by
  rcases hg : r.get u with _ | ⟨res, r1, tr⟩
  · rw [get_unfold r u hlim hwait] at hg
    exact absurd hg (by simp)
  · rw [get_unfold r u hlim hwait] at hg
    simp only [Option.some.injEq] at hg
    refine ⟨res, r1, tr, rfl, ?_⟩
    cases h0 : (u.results 0).failed <;> cases h1 : (u.results 1).failed <;>
      cases a0 : u.allow 0 <;> cases a1 : u.allow 1 <;>
      simp only [h0, h1, hea, a0, a1, Bool.false_eq_true, if_false, if_true,
        Prod.mk.injEq] at hg <;>
      obtain ⟨rfl, _, rfl⟩ := hg <;>
      simp [List.range_succ, List.filter_cons, a0, a1]

/-- Witness of C8 as amended: the adaptive client built by `NewForwardingWorker`
against a bucket that denies the first request and grants the second. -/
theorem get_adaptive_witness :
    ∃ (res : GetResult) (r1 : AdaptiveRetryClient) (tr : GetTrace),
      (NewForwardingWorker "http://up" true 200000000).httpClient.get
        ⟨fun k => if k = 0 then GetResult.failure none "timeout"
                  else GetResult.success ⟨200, "200 OK", ⟨"", none⟩⟩,
         fun k => decide (k = 1), fun _ => 0⟩ = some (res, r1, tr) ∧
      tr.allows = 2 ∧ tr.gets = 2 :=
  match get_adaptive (NewForwardingWorker "http://up" true 200000000).httpClient
      ⟨fun k => if k = 0 then GetResult.failure none "timeout"
                else GetResult.success ⟨200, "200 OK", ⟨"", none⟩⟩,
       fun k => decide (k = 1), fun _ => 0⟩ (Or.inl rfl) (by decide) rfl with
  | ⟨res, r1, tr, hget, _, _, _, hden⟩ =>
      ⟨res, r1, tr, hget, (hden rfl rfl).1, (hden rfl rfl).2⟩


/-! ## Theorems: the forwarding worker -/

/-- C9, what the code does: when the retry client returns a response with no error
and a status below 400 whose body is read without error, `process` returns a nil
error whatever `json.Unmarshal` makes of the body, with the body as message and
the `QoS` field left in `urlResp` as QoS; for a body that `json.Unmarshal`
rejects, leaving `urlResp` at its zero value, that is QoS 0 and not -1. -/
theorem process_body_not_checked (f : ForwardingWorker) (u : Upstream)
    (unmarshal : String → HandlerResponse → HandlerResponse × Option String)
    (resp : Response) (r1 : AdaptiveRetryClient) (tr : GetTrace) (e : String)
    (hget : f.httpClient.get u = some (GetResult.success resp, r1, tr))
    (hstatus : resp.StatusCode < 400) (hread : resp.Body.readErr = none)
    (hbad : unmarshal resp.Body.content HandlerResponse.zero = (HandlerResponse.zero, some e)) :
    f.process u unmarshal =
      some ({ msg := resp.Body.content, qos := F64.fin 0, err := none },
            { f with httpClient := r1 }, tr) := by
  unfold ForwardingWorker.process
  rw [hget]
  have hs : ¬ (400 ≤ resp.StatusCode) := not_le.mpr hstatus
  have hq : (unmarshal resp.Body.content HandlerResponse.zero).1.QoS = F64.fin 0 := by
    rw [hbad]
    rfl
  simp [hs, ioutilReadAll, hread, hq]

/-- Witness of C9: the upstream answers the first GET with 200 and an empty body,
on which `json.Unmarshal` fails with "unexpected end of JSON input"; `process`
returns the empty message, QoS 0 and a nil error. -/
theorem process_body_not_checked_witness :
    ForwardingWorker.process (NewForwardingWorker "http://up" false 200000000)
      ⟨fun _ => GetResult.success ⟨200, "200 OK", ⟨"", none⟩⟩, fun _ => true, fun _ => 0⟩
      (fun b v => if b = "" then (v, some "unexpected end of JSON input") else (v, none)) =
    some ({ msg := "", qos := F64.fin 0, err := none },
          { clientTimeout := 200000000
            httpClient := ⟨200000000, false, 5000000, 50000000, some ⟨200000000⟩, 2⟩
            forwardingUrl := "http://up" },
          ⟨1, 0, []⟩) :=
  process_body_not_checked (NewForwardingWorker "http://up" false 200000000)
    ⟨fun _ => GetResult.success ⟨200, "200 OK", ⟨"", none⟩⟩, fun _ => true, fun _ => 0⟩
    (fun b v => if b = "" then (v, some "unexpected end of JSON input") else (v, none))
    ⟨200, "200 OK", ⟨"", none⟩⟩ ⟨200000000, false, 5000000, 50000000, some ⟨200000000⟩, 2⟩
    ⟨1, 0, []⟩ "unexpected end of JSON input" (by decide) (by decide) rfl rfl


/-! ## Theorems: the latency report -/

/-- Converting an integer of magnitude up to `2^53` is exact. -/
theorem ofInt_eq_exact (i : Int) (h : i.natAbs ≤ 2 ^ 53) : F64.ofInt i = F64.exact i :=
  round_intCast i h

/-- Converting a count up to `2^53` is exact. -/
theorem ofInt_natCast (n : Nat) (h : n ≤ 2 ^ 53) : F64.ofInt (n : Int) = F64.fin (n : ℚ) := by
  have := round_natCast n h
  unfold F64.ofInt
  rw [Int.cast_natCast]
  exact this

/-- On exact integers the order of `sort.Float64s` is the order of the integers. -/
theorem float64Le_exact (a b : Int) : float64Le (F64.exact a) (F64.exact b) ↔ a ≤ b := by
  simp [float64Le, float64Less, F64.exact, F64.lt, F64.isNaN]

/-- Sorting exact integers is sorting the integers. -/
theorem sortFloat64s_map (ls : List Int) :
    sortFloat64s (ls.map F64.exact) = (ls.insertionSort (fun a b => a ≤ b)).map F64.exact := by
  unfold sortFloat64s
  exact (List.map_insertionSort (fun a b => a ≤ b) float64Le F64.exact ls
    (fun a _ b _ => (float64Le_exact a b).symm)).symm

/-- A list of exact integers holds no NaN. -/
theorem any_isNaN_map (sl : List Int) : (sl.map F64.exact).any F64.isNaN = false := by
  induction sl with
  | nil => rfl
  | cons x xs ih => simp [F64.exact, F64.isNaN] at ih ⊢

/-- A sorted list of integers passes `sort.Float64sAreSorted` once converted. -/
theorem float64sAreSorted_map (sl : List Int) (h : sl.Sorted (fun a b => a ≤ b)) :
    float64sAreSorted (sl.map F64.exact) = true := by
  induction sl with
  | nil => rfl
  | cons x xs ih =>
    cases xs with
    | nil => rfl
    | cons y ys =>
      have hxy : x ≤ y := List.rel_of_sorted_cons h y (List.mem_cons_self y ys)
      have hrest := ih (List.Sorted.of_cons h)
      simp only [List.map_cons] at hrest ⊢
      simp only [float64sAreSorted, hrest, Bool.and_true]
      simp [float64Less, F64.exact, F64.lt, F64.isNaN, hxy]

/-- Counting one more element is exact below `2^53`. -/
theorem add_one_natCast (c : Nat) (h : c + 1 ≤ 2 ^ 53) :
    F64.add (F64.fin (c : ℚ)) (F64.fin 1) = F64.fin ((c + 1 : Nat) : ℚ) := by
  have := round_natCast (c + 1) h
  simp only [F64.add]
  rw [← this]
  push_cast
  rfl

/-- The loop of `empiricalQuantile` returns the first element at which the running
count reaches `f`. -/
theorem empiricalQuantileLoop_spec (f : ℚ) (xs : List F64) :
    ∀ c : Nat, c + xs.length ≤ 2 ^ 53 → f ≤ ((c + xs.length : Nat) : ℚ) → xs ≠ [] →
      ∃ (i : Nat) (hi : i < xs.length),
        empiricalQuantileLoop (F64.fin f) (F64.fin (c : ℚ)) xs = some xs[i] ∧
        f ≤ ((c + i + 1 : Nat) : ℚ) ∧ ∀ j : Nat, j < i → ((c + j + 1 : Nat) : ℚ) < f := by
  induction xs with
  | nil => intro c _ _ h; exact absurd rfl h
  | cons x xs ih =>
    intro c hcap hc _
    have hadd := add_one_natCast c (by simp only [List.length_cons] at hcap; omega)
    by_cases hx : f ≤ ((c + 1 : Nat) : ℚ)
    · refine ⟨0, by simp, ?_, by simpa using hx, fun j hj => absurd hj (Nat.not_lt_zero j)⟩
      have hx1 : f ≤ (c : ℚ) + 1 := by
        push_cast at hx
        exact hx
      simp only [empiricalQuantileLoop, hadd]
      simp only [F64.ge, F64.lt, Nat.cast_add, Nat.cast_one, not_lt.mpr hx1, decide_False,
        Bool.not_false, if_true]
      rfl
    · have hlt1 : ((c + 1 : Nat) : ℚ) < f := not_le.mp hx
      have hxs : xs ≠ [] := by
        intro hnil
        subst hnil
        simp only [List.length_cons, List.length_nil] at hc
        exact hx (by simpa using hc)
      have hc1 : f ≤ ((c + 1 + xs.length : Nat) : ℚ) := by
        have e : c + (x :: xs).length = c + 1 + xs.length := by
          simp only [List.length_cons]
          omega
        rw [e] at hc
        exact hc
      have hcap1 : c + 1 + xs.length ≤ 2 ^ 53 := by
        simp only [List.length_cons] at hcap
        omega
      obtain ⟨i, hi, hres, hle, hlt⟩ := ih (c + 1) hcap1 hc1 hxs
      refine ⟨i + 1, by simpa using hi, ?_, ?_, ?_⟩
      · simp only [empiricalQuantileLoop, hadd]
        simp only [F64.ge, F64.lt, hlt1, decide_True, Bool.not_true, Bool.false_eq_true, if_false]
        simpa using hres
      · have e : c + (i + 1) + 1 = c + 1 + i + 1 := by omega
        rw [e]
        exact hle
      · intro j hj
        rcases j with _ | j
        · simpa using hlt1
        · have := hlt j (by omega)
          have e : c + (j + 1) + 1 = c + 1 + j + 1 := by omega
          rw [e]
          exact this

/-- `stat.Quantile` on a sorted slice without NaN of fewer than `2^53` elements
returns the first element whose rank reaches the index `p * n` it computed. -/
theorem statQuantile_index (pf : F64) (xs : List F64) (r : ℚ)
    (hp : (F64.ge pf (F64.fin 0) && F64.ge (F64.fin 1) pf) = true)
    (hnan : xs.any F64.isNaN = false) (hsorted : float64sAreSorted xs = true) (hne : xs ≠ [])
    (hlen : xs.length ≤ 2 ^ 53) (hr : F64.mul pf (F64.ofInt (xs.length : Int)) = F64.fin r)
    (hrn : r ≤ (xs.length : ℚ)) :
    ∃ (i : Nat) (hi : i < xs.length), statQuantile pf xs = some xs[i] ∧
      r ≤ ((i + 1 : Nat) : ℚ) ∧ ∀ j : Nat, j < i → ((j + 1 : Nat) : ℚ) < r := by
  obtain ⟨i, hi, hres, hle, hlt⟩ := empiricalQuantileLoop_spec r xs 0
    (by omega) (by simpa using hrn) hne
  refine ⟨i, hi, ?_, by simpa using hle, fun j hj => by simpa using hlt j hj⟩
  have hl0 : ¬ (xs.length = 0) := by
    intro h0
    exact hne (List.length_eq_zero.mp h0)
  unfold statQuantile
  rw [hp, hnan, hsorted, hr]
  simp only [Bool.not_true, Bool.false_eq_true, if_false, hl0]
  simpa using hres

/-- In a sorted list at least `i + 1` elements are `≤` the one at position `i`. -/
theorem countP_le_getElem_of_sorted (sl : List Int) (hs : sl.Sorted (fun a b => a ≤ b))
    (i : Nat) (hi : i < sl.length) :
    i + 1 ≤ sl.countP (fun x => decide (x ≤ sl[i])) := by
  have hall : ∀ a ∈ sl.take (i + 1), decide (a ≤ sl[i]) = true := by
    intro a ha
    obtain ⟨j, hj, rfl⟩ := List.getElem_of_mem ha
    rw [List.length_take] at hj
    rw [List.getElem_take]
    have hji : j ≤ i := by omega
    exact decide_eq_true (hs.rel_get_of_le (a := ⟨j, by omega⟩) (b := ⟨i, hi⟩) hji)
  have h1 : (sl.take (i + 1)).countP (fun x => decide (x ≤ sl[i])) = (sl.take (i + 1)).length :=
    List.countP_eq_length.mpr hall
  have h2 : (sl.take (i + 1)).countP (fun x => decide (x ≤ sl[i])) ≤
      sl.countP (fun x => decide (x ≤ sl[i])) :=
    List.Sublist.countP_le _ (List.take_sublist _ _)
  rw [h1, List.length_take] at h2
  omega

/-- In a sorted list at most `i` elements are `≤` a value below the one at position `i`. -/
theorem countP_lt_getElem_of_sorted (sl : List Int) (hs : sl.Sorted (fun a b => a ≤ b))
    (i : Nat) (hi : i < sl.length) (w : Int) (hw : w < sl[i]) :
    sl.countP (fun x => decide (x ≤ w)) ≤ i := by
  have hnone : ∀ a ∈ sl.drop i, ¬ (decide (a ≤ w) = true) := by
    intro a ha hle
    obtain ⟨j, hj, rfl⟩ := List.getElem_of_mem ha
    rw [List.length_drop] at hj
    rw [List.getElem_drop] at hle
    have hge : sl[i] ≤ sl[i + j] :=
      hs.rel_get_of_le (a := ⟨i, hi⟩) (b := ⟨i + j, by omega⟩) (Nat.le_add_right i j)
    have := of_decide_eq_true hle
    omega
  have h0 : (sl.drop i).countP (fun x => decide (x ≤ w)) = 0 := List.countP_eq_zero.mpr hnone
  have h1 : (sl.take i).countP (fun x => decide (x ≤ w)) ≤ (sl.take i).length :=
    List.countP_le_length _
  have h2 : sl.countP (fun x => decide (x ≤ w)) =
      (sl.take i).countP (fun x => decide (x ≤ w)) + (sl.drop i).countP (fun x => decide (x ≤ w)) := by
    rw [← List.countP_append, List.take_append_drop]
  rw [List.length_take] at h1
  omega

/-- In a sorted list, the first position whose rank reaches `p * length` holds the
empirical `p`-quantile. -/
theorem quantile_of_first_index (p : ℚ) (sl : List Int) (hs : sl.Sorted (fun a b => a ≤ b))
    (i : Nat) (hi : i < sl.length) (hle : p * (sl.length : ℚ) ≤ (i : ℚ) + 1)
    (hlt : ∀ j : Nat, j < i → (j : ℚ) + 1 < p * (sl.length : ℚ)) :
    IsEmpiricalQuantile p sl sl[i] := by
  refine ⟨List.getElem_mem _, ?_, ?_⟩
  · have h := countP_le_getElem_of_sorted sl hs i hi
    have hq : ((i : ℚ) + 1) ≤ ((sl.countP (fun x => decide (x ≤ sl[i])) : Nat) : ℚ) := by
      exact_mod_cast h
    exact le_trans hle hq
  · intro w hw hcount
    by_contra hnot
    have hwlt : w < sl[i] := not_le.mp hnot
    have hup := countP_lt_getElem_of_sorted sl hs i hi w hwlt
    have hpos : 0 < sl.countP (fun x => decide (x ≤ w)) :=
      List.countP_pos_iff.mpr ⟨w, hw, decide_eq_true (le_refl w)⟩
    have hi1 : i - 1 < i := by omega
    have hj := hlt (i - 1) hi1
    have hcast : ((i - 1 : Nat) : ℚ) + 1 = (i : ℚ) := by
      have : i - 1 + 1 = i := by omega
      exact_mod_cast this
    rw [hcast] at hj
    have hupq : ((sl.countP (fun x => decide (x ≤ w)) : Nat) : ℚ) ≤ (i : ℚ) := by
      exact_mod_cast hup
    linarith

/-- The empirical quantile does not depend on the order of the samples. -/
theorem IsEmpiricalQuantile.perm (p : ℚ) (l1 l2 : List Int) (h : l1.Perm l2) (v : Int)
    (hq : IsEmpiricalQuantile p l1 v) : IsEmpiricalQuantile p l2 v := by
  obtain ⟨hm, hc, hmin⟩ := hq
  refine ⟨h.mem_iff.mp hm, ?_, ?_⟩
  · rw [← h.length_eq, ← h.countP_eq]
    exact hc
  · intro w hw hcw
    rw [← h.length_eq, ← h.countP_eq] at hcw
    exact hmin w (h.mem_iff.mpr hw) hcw

/-- The empirical 1-quantile is the maximum. -/
theorem IsEmpiricalQuantile.isMaximum (ls : List Int) (v : Int)
    (hq : IsEmpiricalQuantile 1 ls v) : IsMaximum ls v := by
  obtain ⟨hm, hc, _⟩ := hq
  refine ⟨hm, ?_⟩
  rw [one_mul] at hc
  have hle : ls.length ≤ ls.countP (fun x => decide (x ≤ v)) := by exact_mod_cast hc
  have heq : ls.countP (fun x => decide (x ≤ v)) = ls.length :=
    Nat.le_antisymm (List.countP_le_length _) hle
  intro w hw
  exact of_decide_eq_true (List.countP_eq_length.mp heq w hw)

/-- The index `0.5 * n` of the median is exact. -/
theorem fidx_half (n : Nat) (hn : n < 2 ^ 53) :
    F64.mul (F64.fin (1 / 2)) (F64.ofInt (n : Int)) = F64.fin ((1 / 2 : ℚ) * (n : ℚ)) := by
  rw [ofInt_natCast n (le_of_lt hn)]
  simp only [F64.mul]
  exact round_half_mul n hn

/-- The index `1.0 * n` of the maximum is exact. -/
theorem fidx_one (n : Nat) (hn : n ≤ 2 ^ 53) :
    F64.mul (F64.fin 1) (F64.ofInt (n : Int)) = F64.fin ((1 : ℚ) * (n : ℚ)) := by
  rw [ofInt_natCast n hn]
  simp only [F64.mul, one_mul]
  exact round_natCast n hn

/-- The index `0.9 * n` of the 90th percentile compares with ranks as `9/10 * n` does. -/
theorem fidx_nine_tenths (n : Nat) (hn : 0 < n) (hn48 : n < 2 ^ 48) :
    ∃ r : ℚ, F64.mul (F64.round (9 / 10)) (F64.ofInt (n : Int)) = F64.fin r ∧
      ∀ j : Nat, r ≤ (j : ℚ) ↔ (9 / 10 : ℚ) * (n : ℚ) ≤ (j : ℚ) := by
  obtain ⟨r, hr, hj⟩ := round_nine_tenths_mul n hn hn48
  refine ⟨r, ?_, hj⟩
  rw [round_nine_tenths, ofInt_natCast n (by
    have : (2 : Nat) ^ 48 ≤ 2 ^ 53 := by norm_num
    omega)]
  simp only [F64.mul]
  exact hr

/-- `stat.Quantile` on a sorted list of exact integers returns the empirical
quantile, for a `float64` level `pf` whose index compares with ranks as `p * n` does. -/
theorem statQuantile_spec (pf : F64) (p : ℚ) (sl : List Int)
    (hp : (F64.ge pf (F64.fin 0) && F64.ge (F64.fin 1) pf) = true) (hp1 : p ≤ 1)
    (hs : sl.Sorted (fun a b => a ≤ b)) (hne : sl ≠ []) (hlen : sl.length ≤ 2 ^ 53)
    (hfidx : ∃ r : ℚ, F64.mul pf (F64.ofInt (sl.length : Int)) = F64.fin r ∧
      ∀ j : Nat, r ≤ (j : ℚ) ↔ p * (sl.length : ℚ) ≤ (j : ℚ)) :
    ∃ v : Int, statQuantile pf (sl.map F64.exact) = some (F64.exact v) ∧
      IsEmpiricalQuantile p sl v := by
  obtain ⟨r, hr, hj⟩ := hfidx
  have hlenq : (0 : ℚ) ≤ (sl.length : ℚ) := Nat.cast_nonneg _
  have hrn : r ≤ (sl.length : ℚ) := (hj sl.length).mpr (by nlinarith)
  have hne1 : sl.map F64.exact ≠ [] := by simpa using hne
  obtain ⟨i, hi, hres, hle, hlt⟩ := statQuantile_index pf (sl.map F64.exact) r hp
    (any_isNaN_map sl) (float64sAreSorted_map sl hs) hne1 (by simpa using hlen)
    (by simpa using hr) (by simpa using hrn)
  have hi1 : i < sl.length := by simpa using hi
  refine ⟨sl[i], ?_, quantile_of_first_index p sl hs i hi1 ?_ ?_⟩
  · rw [hres, List.getElem_map]
  · have := (hj (i + 1)).mp hle
    push_cast at this
    exact this
  · intro j hji
    have h1 := hlt j hji
    have h2 : ¬ (p * (sl.length : ℚ) ≤ ((j + 1 : Nat) : ℚ)) := fun h =>
      absurd ((hj (j + 1)).mpr h) (not_le.mpr h1)
    have := not_le.mp h2
    push_cast at this
    exact this

/-- An exact `int64` converts back to itself. -/
theorem toInt64_exact (v : Int) (h : -(2 : Int) ^ 63 ≤ v ∧ v < 2 ^ 63) :
    F64.toInt64 (F64.exact v) = v := by
  simp only [F64.toInt64, F64.exact, Rat.num_intCast, Rat.den_intCast, Nat.cast_one,
    Int.tdiv_one]
  rw [if_pos h]

/-- Truncating a value between a natural number and its successor. -/
theorem tdiv_of_floor (r : ℚ) (q : Nat) (h1 : (q : ℚ) ≤ r) (h2 : r < (q : ℚ) + 1) :
    r.num.tdiv (r.den : Int) = (q : Int) := by
  have hr0 : (0 : ℚ) ≤ r := le_trans (Nat.cast_nonneg q) h1
  rw [Int.tdiv_eq_ediv (Rat.num_nonneg.mpr hr0) (Int.natCast_nonneg _), ← Rat.floor_def]
  rw [Int.floor_eq_iff]
  exact ⟨by simpa using h1, by simpa using h2⟩

/-- The magnitude of a sum is at most the sum of the magnitudes. -/
theorem natAbs_sum_le (ls : List Int) : ls.sum.natAbs ≤ (ls.map Int.natAbs).sum := by
  induction ls with
  | nil => simp
  | cons x xs ih =>
    simp only [List.sum_cons, List.map_cons]
    have := Int.natAbs_add_le x xs.sum
    omega

/-- Every sample is at most the sum of the magnitudes. -/
theorem natAbs_le_sum (ls : List Int) (l : Int) (hl : l ∈ ls) :
    l.natAbs ≤ (ls.map Int.natAbs).sum :=
  List.single_le_sum (fun _ _ => Nat.zero_le _) _ (List.mem_map_of_mem Int.natAbs hl)

/-- The `floats.Sum` of exact integers whose magnitudes add up to less than
`2^53` is their sum. -/
theorem floatsSum_exact (ls : List Int) (h : (ls.map Int.natAbs).sum < 2 ^ 53) :
    floatsSum (ls.map F64.exact) = F64.fin (ls.sum : ℚ) := by
  have key : ∀ (l : List Int) (a : Int), a.natAbs + (l.map Int.natAbs).sum < 2 ^ 53 →
      (l.map F64.exact).foldl F64.add (F64.fin (a : ℚ)) = F64.fin ((a + l.sum : Int) : ℚ) := by
    intro l
    induction l with
    | nil => intro a _; simp
    | cons x xs ih =>
      intro a ha
      simp only [List.map_cons, List.sum_cons] at ha
      have hax : (a + x).natAbs ≤ 2 ^ 53 := by
        have := Int.natAbs_add_le a x
        omega
      have hstep : F64.add (F64.fin (a : ℚ)) (F64.exact x) = F64.fin ((a + x : Int) : ℚ) := by
        have := round_intCast (a + x) hax
        simp only [F64.add, F64.exact]
        rw [← this]
        push_cast
        rfl
      simp only [List.map_cons, List.foldl_cons, hstep, List.sum_cons]
      have hrest := ih (a + x) (by
        have := Int.natAbs_add_le a x
        omega)
      rw [hrest, add_assoc]
  have := key ls 0 (by simpa using h)
  simpa [floatsSum] using this

/-- `int64(stat.Mean(...))` of exact integers whose magnitudes add up to less than
`2^53` is their truncated mean. -/
theorem toInt64_statMean (ls : List Int) (hne : ls ≠ [])
    (hsum : (ls.map Int.natAbs).sum < 2 ^ 53) (hlen : ls.length ≤ 2 ^ 53) :
    F64.toInt64 (statMean (ls.map F64.exact)) = ls.sum.tdiv ls.length := by
  have hpos : 0 < ls.length := List.length_pos.mpr hne
  have hnq : ((ls.length : Nat) : ℚ) ≠ 0 := by exact_mod_cast (Nat.pos_iff_ne_zero.mp hpos)
  have habs : ls.sum.natAbs < 2 ^ 53 := lt_of_le_of_lt (natAbs_sum_le ls) hsum
  have e1 : ((ls.sum.natAbs : Nat) : ℚ) = (((ls.sum.natAbs : Nat) : Int) : ℚ) :=
    (Int.cast_natCast _).symm
  obtain ⟨r, hr, hr1, hr2⟩ := round_div_floor ls.sum.natAbs ls.length habs hpos hlen
  have hq53 : ls.sum.natAbs / ls.length < 2 ^ 53 :=
    lt_of_le_of_lt (Nat.div_le_self _ _) habs
  have htr := tdiv_of_floor r (ls.sum.natAbs / ls.length) hr1 hr2
  have hQ0 : (0 : Int) ≤ ((ls.sum.natAbs / ls.length : Nat) : Int) := Int.natCast_nonneg _
  have hQ1 : ((ls.sum.natAbs / ls.length : Nat) : Int) < 2 ^ 53 := by exact_mod_cast hq53
  have hmean : statMean (ls.map F64.exact) =
      F64.round ((ls.sum : ℚ) / (ls.length : ℚ)) := by
    unfold statMean
    rw [floatsSum_exact ls hsum, List.length_map, ofInt_natCast ls.length hlen]
    simp only [F64.div, floatDiv, ne_eq, hnq, not_false_eq_true, if_true]
  rw [hmean]
  rcases le_or_lt 0 ls.sum with hS | hS
  · have hz : ((ls.sum.natAbs : Nat) : Int) = ls.sum := Int.natAbs_of_nonneg hS
    rw [e1, hz] at hr
    rw [hr]
    simp only [F64.toInt64]
    rw [htr, if_pos (by constructor <;> omega)]
    rw [Int.tdiv_eq_ediv hS (Int.natCast_nonneg _)]
    have : ((ls.sum.natAbs / ls.length : Nat) : Int) =
        ((ls.sum.natAbs : Nat) : Int) / (ls.length : Int) := Int.natCast_div _ _
    rw [this, hz]
  · have hz : ((ls.sum.natAbs : Nat) : Int) = -ls.sum := by omega
    have hapos : (0 : ℚ) < ((ls.sum.natAbs : Nat) : ℚ) / (ls.length : ℚ) := by
      apply div_pos
      · have : 0 < ls.sum.natAbs := Int.natAbs_pos.mpr (by omega)
        exact_mod_cast this
      · exact_mod_cast hpos
    have hneg := round_neg_of_pos _ r hapos hr
    have harg : -(((ls.sum.natAbs : Nat) : ℚ) / (ls.length : ℚ)) =
        (ls.sum : ℚ) / (ls.length : ℚ) := by
      rw [e1, hz, Int.cast_neg]
      ring
    rw [harg] at hneg
    rw [hneg]
    simp only [F64.toInt64, Rat.neg_num, Rat.neg_den, Int.neg_tdiv]
    rw [htr, if_pos (by constructor <;> omega)]
    have h2 : ls.sum.tdiv (ls.length : Int) = -((-ls.sum).tdiv (ls.length : Int)) := by
      rw [Int.neg_tdiv, neg_neg]
    rw [h2, Int.tdiv_eq_ediv (by omega) (Int.natCast_nonneg _)]
    have : ((ls.sum.natAbs / ls.length : Nat) : Int) =
        ((ls.sum.natAbs : Nat) : Int) / (ls.length : Int) := Int.natCast_div _ _
    rw [this, hz]

/-- The report over a sorted, non-empty slice `latencies` of fewer than `2^48`
exact integers whose magnitudes add up to less than `2^53`. -/
theorem reportStatistics_sorted (s : StatsManager) (cpuUsage : Int) (sl : List Int)
    (hsl : s.sortedLatencies = sl.map F64.exact) (hs : sl.Sorted (fun a b => a ≤ b))
    (hne : sl ≠ []) (hsum : (sl.map Int.natAbs).sum < 2 ^ 53) (hlen : sl.length < 2 ^ 48) :
    ∃ (rep : Report) (s1 : StatsManager), s.reportStatistics cpuUsage = some (rep, s1) ∧
      rep.latencyMean = sl.sum.tdiv sl.length ∧
      IsEmpiricalQuantile (1 / 2) sl rep.p50 ∧ IsEmpiricalQuantile (9 / 10) sl rep.p90 ∧
      IsEmpiricalQuantile 1 sl rep.p100 := by
  have hpos : 0 < sl.length := List.length_pos.mpr hne
  have h248 : (2 : Nat) ^ 48 ≤ 2 ^ 53 := by norm_num
  have hlen53 : sl.length ≤ 2 ^ 53 := by omega
  have hrange : ∀ l ∈ sl, -(2 : Int) ^ 63 ≤ l ∧ l < 2 ^ 63 := by
    intro l hl
    have := natAbs_le_sum sl l hl
    constructor <;> omega
  obtain ⟨v50, h50, q50⟩ := statQuantile_spec (F64.fin (1 / 2)) (1 / 2) sl
    (by simp [F64.ge, F64.lt]; norm_num) (by norm_num) hs hne hlen53
    ⟨_, fidx_half sl.length (by omega), fun _ => Iff.rfl⟩
  obtain ⟨v90, h90, q90⟩ := statQuantile_spec (F64.round (9 / 10)) (9 / 10) sl
    (by rw [round_nine_tenths]; simp [F64.ge, F64.lt]; norm_num) (by norm_num) hs hne hlen53
    (fidx_nine_tenths sl.length hpos hlen)
  obtain ⟨v100, h100, q100⟩ := statQuantile_spec (F64.fin 1) 1 sl
    (by simp [F64.ge, F64.lt]) (by norm_num) hs hne hlen53
    ⟨_, fidx_one sl.length hlen53, fun _ => Iff.rfl⟩
  unfold StatsManager.reportStatistics
  simp only [hsl, h50, h90, h100, Option.bind_some]
  refine ⟨_, _, rfl, ?_, ?_, ?_, ?_⟩
  · exact toInt64_statMean sl hne hsum hlen53
  · simp only [toInt64_exact v50 (hrange v50 q50.1)]
    exact q50
  · simp only [toInt64_exact v90 (hrange v90 q90.1)]
    exact q90
  · simp only [toInt64_exact v100 (hrange v100 q100.1)]
    exact q100

/-- C10: for every sequence of fewer than 2^48 recorded latencies whose
magnitudes add up to less than 2^53 (so that every sample and every partial sum
is a `float64` value), in any order, `reportStatistics` returns; when the
sequence is not empty it reports as mean the arithmetic mean truncated to an
integer, as p100 the maximum sample and as p50 / p90 the empirical quantile (the
smallest sample `v` such that at least the fraction `p` of the samples are
`≤ v`); for the samples 10, 20, 30, 40 in any order that is mean 25, p50 20 and
p100 40; and when no latency was recorded the mean and the three percentiles
are 0. -/
theorem reportStatistics_latency (s : StatsManager) (cpuUsage : Int) (ls : List Int)
    (hls : s.rqstLatencies = ls.map F64.ofInt)
    (hsum : (ls.map Int.natAbs).sum < 2 ^ 53) (hlen : ls.length < 2 ^ 48) :
    ∃ (rep : Report) (s1 : StatsManager), s.reportStatistics cpuUsage = some (rep, s1) ∧
      (ls ≠ [] →
        rep.latencyMean = ls.sum.tdiv ls.length ∧ IsMaximum ls rep.p100 ∧
        IsEmpiricalQuantile (1 / 2) ls rep.p50 ∧ IsEmpiricalQuantile (9 / 10) ls rep.p90) ∧
      (ls.Perm [10, 20, 30, 40] → rep.latencyMean = 25 ∧ rep.p50 = 20 ∧ rep.p100 = 40) ∧
      (ls = [] → rep.latencyMean = 0 ∧ rep.p50 = 0 ∧ rep.p90 = 0 ∧ rep.p100 = 0) := by
  have hexact : ls.map F64.ofInt = ls.map F64.exact :=
    List.map_congr_left (fun l hl => ofInt_eq_exact l (by
      have := natAbs_le_sum ls l hl
      omega))
  rw [hexact] at hls
  by_cases hne : ls = []
  · subst hne
    have hsl : s.sortedLatencies = ([0] : List Int).map F64.exact := by
      simp [StatsManager.sortedLatencies, hls, F64.exact]
    obtain ⟨rep, s1, hrep, hmean, q50, q90, q100⟩ :=
      reportStatistics_sorted s cpuUsage [0] hsl (List.sorted_singleton 0) (by simp)
        (by norm_num) (by norm_num)
    refine ⟨rep, s1, hrep, fun h => absurd rfl h, ?_, fun _ => ⟨?_, ?_, ?_, ?_⟩⟩
    · intro hperm
      have := hperm.length_eq
      simp at this
    · rw [hmean]; rfl
    · simpa using q50.1
    · simpa using q90.1
    · simpa using q100.1
  · have hperm : (ls.insertionSort (fun a b => a ≤ b)).Perm ls := List.perm_insertionSort _ ls
    have hsorted : (ls.insertionSort (fun a b => a ≤ b)).Sorted (fun a b => a ≤ b) :=
      List.sorted_insertionSort _ ls
    have hpos : 0 < ls.length := List.length_pos.mpr hne
    have hsl : s.sortedLatencies = (ls.insertionSort (fun a b => a ≤ b)).map F64.exact := by
      simp only [StatsManager.sortedLatencies, hls, List.length_map, hpos, if_true]
      exact sortFloat64s_map ls
    have hne1 : ls.insertionSort (fun a b => a ≤ b) ≠ [] := by
      intro h0
      have := hperm.length_eq
      rw [h0] at this
      simp at this
      omega
    have hsum1 : ((ls.insertionSort (fun a b => a ≤ b)).map Int.natAbs).sum < 2 ^ 53 := by
      rw [(hperm.map Int.natAbs).sum_eq]
      exact hsum
    obtain ⟨rep, s1, hrep, hmean, q50, q90, q100⟩ :=
      reportStatistics_sorted s cpuUsage _ hsl hsorted hne1 hsum1
        (by rw [hperm.length_eq]; exact hlen)
    rw [hperm.sum_eq, hperm.length_eq] at hmean
    have p50 := IsEmpiricalQuantile.perm _ _ _ hperm _ q50
    have p90 := IsEmpiricalQuantile.perm _ _ _ hperm _ q90
    have p100 := IsEmpiricalQuantile.perm _ _ _ hperm _ q100
    refine ⟨rep, s1, hrep, fun _ => ⟨hmean, IsEmpiricalQuantile.isMaximum _ _ p100, p50, p90⟩,
      ?_, fun h => absurd h hne⟩
    intro h4
    have e50 := IsEmpiricalQuantile.perm _ _ _ h4 _ p50
    have e100 := IsEmpiricalQuantile.isMaximum _ _ (IsEmpiricalQuantile.perm _ _ _ h4 _ p100)
    refine ⟨?_, ?_, ?_⟩
    · rw [hmean, h4.sum_eq, h4.length_eq]
      decide
    · obtain ⟨hm, hc, hmin⟩ := e50
      have h20 := hmin 20 (by simp) (by norm_num [List.countP_cons])
      simp only [List.mem_cons, List.mem_singleton, List.not_mem_nil, or_false] at hm
      rcases hm with h | h | h | h
      · rw [h] at hc
        norm_num [List.countP_cons] at hc
      · exact h
      · omega
      · omega
    · obtain ⟨hm, hmax⟩ := e100
      have h40 := hmax 40 (by simp)
      simp only [List.mem_cons, List.mem_singleton, List.not_mem_nil, or_false] at hm
      omega

/-- Witness of C10: the samples 40, 10, 30, 20 recorded in that order into a fresh
statistics window. -/
theorem reportStatistics_latency_witness :
    ∃ (rep : Report) (s1 : StatsManager),
      ((((NewStatsManager.recordLatency 40).recordLatency 10).recordLatency 30).recordLatency
        20).reportStatistics 7 = some (rep, s1) ∧
      rep.latencyMean = 25 ∧ rep.p50 = 20 ∧ rep.p100 = 40 :=
  match reportStatistics_latency
      ((((NewStatsManager.recordLatency 40).recordLatency 10).recordLatency 30).recordLatency 20)
      7 [40, 10, 30, 20] rfl (by decide) (by decide) with
  | ⟨rep, s1, hrep, _, h4, _⟩ =>
      ⟨rep, s1, hrep, h4 (by decide)⟩

/-! ## Theorems: the statistics window -/

/-- What one invocation of `defaultHandler` does to the counters and to the
latency sequence. -/
theorem defaultHandler_statman (srv : ServiceServer) (env : HandlerEnv) :
    (srv.defaultHandler env).1.statman.connAccepted = (srv.statman.connAccepted + 1) % uintSize ∧
    (srv.defaultHandler env).1.statman.rqstReceived = (srv.statman.rqstReceived + 1) % uintSize ∧
    (srv.defaultHandler env).1.statman.connClosed = (srv.statman.connClosed + 1) % uintSize ∧
    (srv.defaultHandler env).1.statman.rqstLatencies.length =
      srv.statman.rqstLatencies.length + 1 ∧
    ((srv.defaultHandler env).1.statman.rqstProcessed = srv.statman.rqstProcessed ∨
      (srv.defaultHandler env).1.statman.rqstProcessed =
        (srv.statman.rqstProcessed + 1) % uintSize) ∧
    ((srv.defaultHandler env).1.statman.connProcessed = srv.statman.connProcessed ∨
      (srv.defaultHandler env).1.statman.connProcessed =
        (srv.statman.connProcessed + 1) % uintSize) := by
  unfold ServiceServer.defaultHandler
  by_cases hq : F64.ge env.outcome.qos (F64.fin 0) = true <;>
  by_cases he : env.outcome.err = none <;>
  cases hc : env.ctxDone <;>
  simp [hq, he, hc, StatsManager.incrAcceptedConns, StatsManager.incrReceivedRqsts,
    StatsManager.recordQoS, StatsManager.incrProcessedRqsts, StatsManager.incrProcessedConns,
    StatsManager.recordLatency, StatsManager.incrClosedConns]

/-- A successful `reportStatistics` leaves the empty window. -/
theorem reportStatistics_reset (s s1 : StatsManager) (cpuUsage : Int) (rep : Report)
    (h : s.reportStatistics cpuUsage = some (rep, s1)) : s1 = NewStatsManager := by
  unfold StatsManager.reportStatistics at h
  simp only [Option.bind_eq_some] at h
  obtain ⟨_, _, _, _, _, _, h⟩ := h
  simp only [Option.some.injEq, Prod.mk.injEq] at h
  rw [← h.2]
  rfl

/-- An incremented counter that stays below the wrap-around is one more. -/
theorem incr_mod (c n : Nat) (hc : c ≤ n) (hn : n + 1 < uintSize) :
    (c + 1) % uintSize = c + 1 :=
  Nat.mod_eq_of_lt (by omega)

/-- One invocation of `defaultHandler` keeps the counters in step with the
latency samples. -/
theorem defaultHandler_preserves_inv (srv : ServiceServer) (env : HandlerEnv)
    (hinv : WindowInv srv.statman) : WindowInv (srv.defaultHandler env).1.statman := by
  obtain ⟨ha, hr, hc, hl, hp, hcp⟩ := defaultHandler_statman srv env
  intro hlen
  rw [hl] at hlen
  obtain ⟨ia, ir, ic, ip, icp⟩ := hinv (by omega)
  rw [ha, hr, hc, hl, ia, ir, ic, incr_mod _ _ (Nat.le_refl _) hlen]
  refine ⟨rfl, rfl, rfl, ?_, ?_⟩
  · rcases hp with h | h
    · rw [h]; omega
    · rw [h, incr_mod _ _ ip hlen]; omega
  · rcases hcp with h | h
    · rw [h]; omega
    · rw [h, incr_mod _ _ icp hlen]; omega

/-- The counters agree with the latency samples in every reachable window. -/
theorem windowReachable_inv (s : StatsManager) (hr : WindowReachable s) : WindowInv s := by
  induction hr with
  | empty =>
    intro _
    simp [NewStatsManager]
  | handler srv env _ ih => exact defaultHandler_preserves_inv srv env ih
  | report s s1 cpuUsage rep _ hrep _ =>
    rw [reportStatistics_reset s s1 cpuUsage rep hrep]
    intro _
    simp [NewStatsManager]

/-- The `float64` quotient of a `uint` count by a positive `uint` count that is
not smaller is a finite value between 0 and 1. -/
theorem rate_range (p r : Nat) (hr : 0 < r) (hpr : p ≤ r) (hr64 : r < uintSize) :
    ∃ q : ℚ, F64.div (F64.ofInt (p : Int)) (F64.ofInt (r : Int)) = F64.fin q ∧
      0 ≤ q ∧ q ≤ 1 := by
  have h64 : (2 : ℚ) ^ (64 : Int) = 2 ^ 64 := by norm_num
  have hr1 : (1 : ℚ) ≤ (r : ℚ) := by exact_mod_cast hr
  have hrq64 : (r : ℚ) ≤ 2 ^ 64 := by
    have : r ≤ 2 ^ 64 := le_of_lt hr64
    exact_mod_cast this
  obtain ⟨rr, hrr, hrr1, hrr2⟩ := round_between (r : ℚ) 0 64 (by norm_num) (by norm_num)
    (by simpa using hr1) (by rw [h64]; exact hrq64)
  rw [zpow_zero] at hrr1
  rw [h64] at hrr2
  have hrr0 : rr ≠ 0 := by linarith
  have hofr : F64.ofInt (r : Int) = F64.fin rr := by
    unfold F64.ofInt
    rw [Int.cast_natCast]
    exact hrr
  rcases Nat.eq_zero_or_pos p with h0 | hp
  · subst h0
    refine ⟨0, ?_, le_refl 0, by norm_num⟩
    rw [hofr]
    simp [F64.ofInt, round_zero, F64.div, floatDiv, hrr0]
  have hp1 : (1 : ℚ) ≤ (p : ℚ) := by exact_mod_cast hp
  have hpq : (p : ℚ) ≤ (r : ℚ) := by exact_mod_cast hpr
  obtain ⟨pp, hpp, hpp1, _⟩ := round_between (p : ℚ) 0 64 (by norm_num) (by norm_num)
    (by simpa using hp1) (by rw [h64]; linarith)
  rw [zpow_zero] at hpp1
  have hofp : F64.ofInt (p : Int) = F64.fin pp := by
    unfold F64.ofInt
    rw [Int.cast_natCast]
    exact hpp
  have hmono : pp ≤ rr := round_mono_pos (p : ℚ) (r : ℚ) pp rr (by linarith) hpq
    (by
      have := le_log_of_pow_le (p : ℚ) (by linarith) 0 (by simpa using hp1)
      omega)
    (by
      have := log_lt_of_lt_pow (r : ℚ) (by linarith) 65 (by
        have : (2 : ℚ) ^ (65 : Int) = 2 ^ 65 := by norm_num
        rw [this]
        linarith)
      omega)
    hpp hrr
  have hrrpos : (0 : ℚ) < rr := by linarith
  obtain ⟨q, hq, hq1, hq2⟩ := round_between (pp / rr) (-64) 0 (by norm_num) (by norm_num)
    (by
      rw [le_div_iff₀ hrrpos]
      have : (2 : ℚ) ^ (-64 : Int) = 1 / 2 ^ 64 := by norm_num
      rw [this, div_mul_eq_mul_div, one_mul, div_le_iff₀ (by norm_num)]
      nlinarith)
    (by
      rw [zpow_zero, div_le_one hrrpos]
      exact hmono)
  rw [zpow_zero] at hq2
  refine ⟨q, ?_, le_trans (le_of_lt (zpow_pos (by norm_num) _)) hq1, hq2⟩
  rw [hofp, hofr]
  simp only [F64.div, floatDiv, ne_eq, hrr0, not_false_eq_true, if_true]
  exact hq

/-- C11: in every `StatsManager` state reached from the empty window by whole
`defaultHandler` invocations and whole `reportStatistics` calls (the latency
slice being shorter than 2^64, as every Go slice is),
connAccepted = rqstReceived = connClosed = len(rqstLatencies),
rqstProcessed ≤ rqstReceived and connProcessed ≤ connClosed; hence whenever
connClosed > 0 both divisors of `reportStatistics` are non-zero and the service
and client ratios it computes are finite values in [0, 1] before clamping. -/
theorem window_counters (s : StatsManager) (hr : WindowReachable s)
    (hlen : s.rqstLatencies.length < uintSize) :
    (s.connAccepted = s.rqstReceived ∧ s.rqstReceived = s.connClosed ∧
      s.connClosed = s.rqstLatencies.length ∧
      s.rqstProcessed ≤ s.rqstReceived ∧ s.connProcessed ≤ s.connClosed) ∧
    (0 < s.connClosed →
      s.rqstReceived ≠ 0 ∧ s.connClosed ≠ 0 ∧
      ∃ q1 q2 : ℚ, s.serviceRate = F64.fin q1 ∧ 0 ≤ q1 ∧ q1 ≤ 1 ∧
        s.clientRate = F64.fin q2 ∧ 0 ≤ q2 ∧ q2 ≤ 1) := by
  obtain ⟨ia, ir, ic, ip, icp⟩ := windowReachable_inv s hr hlen
  refine ⟨⟨by rw [ia, ir], by rw [ir, ic], ic, by rw [ir]; exact ip, by rw [ic]; exact icp⟩, ?_⟩
  intro hpos
  have hrpos : 0 < s.rqstReceived := by rw [ir, ← ic]; exact hpos
  have hr64 : s.rqstReceived < uintSize := by rw [ir]; exact hlen
  have hc64 : s.connClosed < uintSize := by rw [ic]; exact hlen
  obtain ⟨q1, h1, h10, h11⟩ := rate_range s.rqstProcessed s.rqstReceived hrpos
    (by rw [ir]; exact ip) hr64
  obtain ⟨q2, h2, h20, h21⟩ := rate_range s.connProcessed s.connClosed hpos
    (by rw [ic]; exact icp) hc64
  refine ⟨Nat.pos_iff_ne_zero.mp hrpos, Nat.pos_iff_ne_zero.mp hpos, q1, q2,
    ?_, h10, h11, ?_, h20, h21⟩
  · simp only [StatsManager.serviceRate, hpos, if_true]
    exact h1
  · simp only [StatsManager.clientRate, hpos, if_true]
    exact h2

/-- Witness of C11: the window after two whole handler invocations. -/
theorem window_counters_witness :
    WindowReachable twoRequestsWindow ∧ twoRequestsWindow.rqstLatencies.length < uintSize ∧
    (twoRequestsWindow.connAccepted = twoRequestsWindow.rqstReceived ∧
      twoRequestsWindow.rqstReceived = twoRequestsWindow.connClosed ∧
      twoRequestsWindow.connClosed = twoRequestsWindow.rqstLatencies.length ∧
      twoRequestsWindow.rqstProcessed ≤ twoRequestsWindow.rqstReceived ∧
      twoRequestsWindow.connProcessed ≤ twoRequestsWindow.connClosed) :=
  have hr : WindowReachable twoRequestsWindow :=
    WindowReachable.handler
      ⟨"agent", 1, 0,
        (ServiceServer.defaultHandler ⟨"agent", 1, 0, NewStatsManager⟩
          ⟨⟨1000⟩, ⟨1007⟩, BaseWorker.process, false, "rq1"⟩).1.statman⟩
      ⟨⟨1010⟩, ⟨1030⟩, ⟨"Error getting URL", F64.fin (-1), some "timeout"⟩, true, "rq2"⟩
      (WindowReachable.handler ⟨"agent", 1, 0, NewStatsManager⟩
        ⟨⟨1000⟩, ⟨1007⟩, BaseWorker.process, false, "rq1"⟩ WindowReachable.empty)
  have hlen : twoRequestsWindow.rqstLatencies.length < uintSize := by
    unfold twoRequestsWindow
    rw [(defaultHandler_statman _ _).2.2.2.1, (defaultHandler_statman _ _).2.2.2.1]
    decide
  ⟨hr, hlen, (window_counters twoRequestsWindow hr hlen).1⟩

/-- The order of `sort.Float64s` is total. -/
theorem float64Le_total (a b : F64) : float64Le a b ∨ float64Le b a := by
  cases a <;> cases b <;> simp [float64Le, float64Less, F64.lt, F64.isNaN]
  exact le_total _ _

/-- The order of `sort.Float64s` is transitive. -/
theorem float64Le_trans (a b c : F64) (h1 : float64Le a b) (h2 : float64Le b c) :
    float64Le a c := by
  cases a <;> cases b <;> cases c <;>
    simp [float64Le, float64Less, F64.lt, F64.isNaN] at h1 h2 ⊢
  exact le_trans h1 h2

/-- A slice in the order of `sort.Float64s` passes `sort.Float64sAreSorted`. -/
theorem float64sAreSorted_of_sorted (xs : List F64) (h : xs.Sorted float64Le) :
    float64sAreSorted xs = true := by
  induction xs with
  | nil => rfl
  | cons x xs ih =>
    cases xs with
    | nil => rfl
    | cons y ys =>
      have hxy : float64Le x y := List.rel_of_sorted_cons h y (List.mem_cons_self y ys)
      have hrest := ih (List.Sorted.of_cons h)
      unfold float64Le at hxy
      simp only [float64sAreSorted, hrest, hxy, Bool.not_false, Bool.and_true]

/-- A slice of finite values holds no NaN. -/
theorem any_isNaN_of_fin (xs : List F64) (h : ∀ x ∈ xs, ∃ q : ℚ, x = F64.fin q) :
    xs.any F64.isNaN = false := by
  rw [List.any_eq_false]
  intro x hx
  obtain ⟨q, hq⟩ := h x hx
  rw [hq]
  simp [F64.isNaN]

/-- The wrap-around of `int64` arithmetic gives an `int64`. -/
theorem wrapInt64_range (x : Int) : -(2 : Int) ^ 63 ≤ wrapInt64 x ∧ wrapInt64 x < 2 ^ 63 := by
  unfold wrapInt64
  have h1 := Int.emod_nonneg (x + 2 ^ 63) (by norm_num : (2 : Int) ^ 64 ≠ 0)
  have h2 := Int.emod_lt_of_pos (x + 2 ^ 63) (by norm_num : (0 : Int) < 2 ^ 64)
  constructor <;> omega

/-- Converting an `int64` gives a finite `float64`. -/
theorem ofInt_fin (l : Int) (h : -(2 : Int) ^ 63 ≤ l ∧ l < 2 ^ 63) :
    ∃ q : ℚ, F64.ofInt l = F64.fin q := by
  have h63 : (2 : ℚ) ^ (63 : Int) = 2 ^ 63 := by norm_num
  have hpos : ∀ a : ℚ, 1 ≤ a → a ≤ 2 ^ 63 → ∃ q : ℚ, F64.round a = F64.fin q := by
    intro a h1 h2
    obtain ⟨r, hr, _, _⟩ := round_between a 0 63 (by norm_num) (by norm_num)
      (by simpa using h1) (by rw [h63]; exact h2)
    exact ⟨r, hr⟩
  unfold F64.ofInt
  rcases lt_trichotomy l 0 with hneg | hzero | hp
  · have h1 : (1 : ℚ) ≤ -(l : ℚ) := by
      have : (1 : Int) ≤ -l := by omega
      exact_mod_cast this
    have h2 : -(l : ℚ) ≤ 2 ^ 63 := by
      have : -l ≤ (2 : Int) ^ 63 := by omega
      exact_mod_cast this
    obtain ⟨q, hq⟩ := hpos (-(l : ℚ)) h1 h2
    have := round_neg_of_pos (-(l : ℚ)) q (by linarith) hq
    rw [neg_neg] at this
    exact ⟨-q, this⟩
  · subst hzero
    exact ⟨0, by simpa using round_zero⟩
  · have h1 : (1 : ℚ) ≤ (l : ℚ) := by
      have : (1 : Int) ≤ l := by omega
      exact_mod_cast this
    have h2 : (l : ℚ) ≤ 2 ^ 63 := by
      have : l ≤ (2 : Int) ^ 63 := by omega
      exact_mod_cast this
    exact hpos (l : ℚ) h1 h2

/-- In a reachable window every latency is a finite `float64`. -/
theorem windowReachable_latencies (s : StatsManager) (hr : WindowReachable s) :
    ∀ x ∈ s.rqstLatencies, ∃ q : ℚ, x = F64.fin q := by
  induction hr with
  | empty =>
    intro x hx
    simp [NewStatsManager] at hx
  | handler srv env _ ih =>
    have hlat : (srv.defaultHandler env).1.statman.rqstLatencies =
        srv.statman.rqstLatencies ++ [F64.ofInt (env.clockAtEnd.Since env.clockAtStart.GetMillis)] := by
      unfold ServiceServer.defaultHandler
      by_cases hq : F64.ge env.outcome.qos (F64.fin 0) = true <;>
      by_cases he : env.outcome.err = none <;>
      cases hc : env.ctxDone <;>
      simp [hq, he, hc, StatsManager.incrAcceptedConns, StatsManager.incrReceivedRqsts,
        StatsManager.recordQoS, StatsManager.incrProcessedRqsts, StatsManager.incrProcessedConns,
        StatsManager.recordLatency, StatsManager.incrClosedConns]
    intro x hx
    rw [hlat] at hx
    rcases List.mem_append.mp hx with h | h
    · exact ih x h
    · rw [List.mem_singleton] at h
      rw [h]
      exact ofInt_fin _ (wrapInt64_range _)
  | report s s1 cpuUsage rep _ hrep _ =>
    rw [reportStatistics_reset s s1 cpuUsage rep hrep]
    intro x hx
    simp [NewStatsManager] at hx

/-- In every reachable window of fewer than `2^48` latencies `reportStatistics`
returns (no quantile panics), so the report step is enabled. -/
theorem windowReachable_report (s : StatsManager) (hr : WindowReachable s)
    (hlen : s.rqstLatencies.length < 2 ^ 48) (cpuUsage : Int) :
    ∃ rep : Report, s.reportStatistics cpuUsage = some (rep, NewStatsManager) := by
  have hfin := windowReachable_latencies s hr
  have h248 : (2 : Nat) ^ 48 ≤ 2 ^ 53 := by norm_num
  have key : s.sortedLatencies ≠ [] ∧ s.sortedLatencies.length < 2 ^ 48 ∧
      s.sortedLatencies.any F64.isNaN = false ∧ float64sAreSorted s.sortedLatencies = true := by
    unfold StatsManager.sortedLatencies
    by_cases hpos : 0 < s.rqstLatencies.length
    · have hperm : (s.rqstLatencies.insertionSort float64Le).Perm s.rqstLatencies :=
        List.perm_insertionSort _ _
      simp only [hpos, if_true, sortFloat64s]
      refine ⟨?_, by rw [hperm.length_eq]; exact hlen, ?_, ?_⟩
      · intro h0
        have := hperm.length_eq
        rw [h0] at this
        simp at this
        omega
      · exact any_isNaN_of_fin _ (fun x hx => hfin x (hperm.mem_iff.mp hx))
      · exact float64sAreSorted_of_sorted _
          (@List.sorted_insertionSort F64 float64Le _ ⟨float64Le_total⟩ ⟨float64Le_trans⟩ _)
    · simp only [hpos, if_false]
      refine ⟨by simp, by norm_num, ?_, rfl⟩
      simp [F64.isNaN]
  obtain ⟨hne, hl48, hnan, hsorted⟩ := key
  have hpos : 0 < s.sortedLatencies.length := List.length_pos.mpr hne
  have hl53 : s.sortedLatencies.length ≤ 2 ^ 53 := by omega
  have hnn : (0 : ℚ) ≤ (s.sortedLatencies.length : ℚ) := Nat.cast_nonneg _
  obtain ⟨i50, _, h50, _⟩ := statQuantile_index (F64.fin (1 / 2)) s.sortedLatencies _
    (by simp [F64.ge, F64.lt]; norm_num) hnan hsorted hne hl53
    (fidx_half _ (by omega)) (by linarith)
  obtain ⟨r90, hr90, hj90⟩ := fidx_nine_tenths s.sortedLatencies.length hpos hl48
  obtain ⟨i90, _, h90, _⟩ := statQuantile_index (F64.round (9 / 10)) s.sortedLatencies r90
    (by rw [round_nine_tenths]; simp [F64.ge, F64.lt]; norm_num) hnan hsorted hne hl53
    hr90 ((hj90 _).mpr (by linarith))
  obtain ⟨i100, _, h100, _⟩ := statQuantile_index (F64.fin 1) s.sortedLatencies _
    (by simp [F64.ge, F64.lt]) hnan hsorted hne hl53
    (fidx_one _ hl53) (by linarith)
  unfold StatsManager.reportStatistics
  simp only [h50, h90, h100, Option.bind_some]
  exact ⟨_, rfl⟩

end AppService
